import Mathlib

/-!
# SafeWalk routing core — shallow embedding

This file embeds the safety-weighted routing core of the repository in Lean 4
and proves the specification claims about it.

Source files embedded:
* backend/engines/dijkstra.py — `build_adjacency_list`, `compute_route`
  (the ADA-aware variant; the second module backend/app/services/dijkstra.py
  is the same code without the accessibility filter and exclusion counter).
* backend/app/services/gemini.py — `_update_danger_scores`.

Modelling conventions:
* Python floats are modelled as exact rationals (ℚ).  Python's `round(x, n)`
  rounds half to even; `rhe` below implements round-half-to-even on ℚ.
* MongoDB collections are lists of records in iteration order; Python dicts
  are insertion-ordered association lists, looked up with `look`.
* `heapq` is modelled as a min-priority queue kept as a cost-sorted list
  (`pqPush` inserts, the head is popped).  This agrees with the binary heap
  on every pop of a strict minimum; the order among equal-cost entries is
  unspecified in both.  `_QueueItem` compares by cost only, so entries are
  (cost, node) pairs compared on the first component.
* `async`/`await` store traversal is sequential iteration over the list
  snapshot, which is what a single request observes.
-/

/-! ## Rounding: Python's round(x, ndigits) on exact rationals -/

/-- Round-half-to-even to an integer, the rounding used by Python's `round`. -/
def rhe (x : ℚ) : ℤ :=
  let f : ℤ := ⌊x⌋
  let r : ℚ := x - f
  if r < 1/2 then f
  else if 1/2 < r then f + 1
  else if f % 2 = 0 then f else f + 1

/-- Python `round(x, 2)`. -/
def round2 (x : ℚ) : ℚ := (rhe (x * 100) : ℚ) / 100

/-- Python `round(x, 4)`, used only at the result boundary of the solver. -/
def round4 (x : ℚ) : ℚ := (rhe (x * 10000) : ℚ) / 10000

/-! ## Data model

A `Street` document carries the fields consumed by the routing core and the
hazard blender; `bidirectional` and `is_accessible` are the values observed
after Python's `.get(…, True)` defaulting. -/

structure Intersection where
  id : String
  coordinates : List ℚ
deriving DecidableEq, Repr

structure Street where
  name : String
  start_intersection_id : String
  end_intersection_id : String
  distance_m : ℚ
  danger_score : ℚ
  bidirectional : Bool := true
  is_accessible : Bool := true
deriving DecidableEq, Repr

inductive Mode where
  | safest
  | shortest
deriving DecidableEq, Repr

/-- Python dict lookup (`d.get(k)` / `k in d`), first (i.e. most recent for
cons-updated maps) binding wins. -/
def look {α : Type} : List (String × α) → String → Option α
  | [], _ => none
  | (k, v) :: r, a => if a = k then some v else look r a

/-- Python dict assignment `d[k] = v`: overwrite in place or append. -/
def setTo {α : Type} : List (String × α) → String → α → List (String × α)
  | [], k, v => [(k, v)]
  | (k', v') :: r, k, v => if k = k' then (k, v) :: r else (k', v') :: setTo r k v

/-! ## Graph snapshot builder (build_adjacency_list) -/

abbrev Arcs := List (String × ℚ)
abbrev Adj := List (String × Arcs)
abbrev Coords := List (String × List ℚ)

/-- `adj.setdefault(nid, [])`. -/
def seedNode (adj : Adj) (nid : String) : Adj :=
  match look adj nid with
  | some _ => adj
  | none => adj ++ [(nid, [])]

/-- `adj.setdefault(k, []).append(arc)`: append one arc to `k`'s list,
creating the key at the end if absent (dict insertion order). -/
def addArc : Adj → String → (String × ℚ) → Adj
  | [], k, arc => [(k, [arc])]
  | (k', l) :: rest, k, arc =>
    if k = k' then (k', l ++ [arc]) :: rest else (k', l) :: addArc rest k arc

/-- Per-edge step of the edge loop in `build_adjacency_list`. -/
def edgeStep (mode : Mode) (ada_required : Bool) (acc : Adj × ℕ) (e : Street) : Adj × ℕ :=
  if ada_required && !e.is_accessible then
    (acc.1, acc.2 + 1)
  else
    let base := if mode = Mode.safest then e.danger_score else e.distance_m
    -- weight = max(weight, 0.01): Python's max keeps the first argument on ties
    let weight := if base < 1/100 then 1/100 else base
    let a1 := addArc acc.1 e.start_intersection_id (e.end_intersection_id, weight)
    let a2 := if e.bidirectional then
        addArc a1 e.end_intersection_id (e.start_intersection_id, weight)
      else a1
    (a2, acc.2)

def edgesFold (mode : Mode) (ada_required : Bool) (streets : List Street)
    (acc : Adj × ℕ) : Adj × ℕ :=
  streets.foldl (edgeStep mode ada_required) acc

/-- backend/engines/dijkstra.py `build_adjacency_list`. -/
def build_adjacency_list (inters : List Intersection) (streets : List Street)
    (mode : Mode) (ada_required : Bool) : Adj × Coords × ℕ :=
  let init := inters.foldl
    (fun (p : Adj × Coords) doc => (seedNode p.1 doc.id, setTo p.2 doc.id doc.coordinates))
    ([], [])
  let r := edgesFold mode ada_required streets (init.1, 0)
  (r.1, init.2, r.2)

/-- Arc list of a node in the built adjacency (`adj.get(u, [])`). -/
def arcsOf (adj : Adj) (u : String) : Arcs := (look adj u).getD []

/-! ## Shortest-path solver (compute_route) -/

/-- Solver state: `dist`, `prev` and the priority queue.  The maps are
cons-updated association lists (`look` finds the newest binding). -/
structure St where
  dist : List (String × ℚ)
  prev : List (String × Option String)
  pq : List (ℚ × String)
deriving DecidableEq, Repr

/-- `heapq.heappush`: insert keeping the list sorted by cost. -/
def pqPush : List (ℚ × String) → (ℚ × String) → List (ℚ × String)
  | [], it => [it]
  | x :: xs, it => if it.1 < x.1 then it :: x :: xs else x :: pqPush xs it

/-- Relaxation of one outgoing arc of `u` (the body of the `for` loop):
`new_cost = dist[u] + weight; if new_cost < dist.get(neighbour, inf): …`. -/
def relaxStep (u : String) (s : St) (arc : String × ℚ) : St :=
  match look s.dist u with
  | none => s
    -- unreachable: every queued node has a dist entry, so `dist[u]` is
    -- present whenever relaxation runs (a missing key would raise in Python)
  | some du =>
    let nc := du + arc.2
    let upd : St :=
      { dist := (arc.1, nc) :: s.dist
        prev := (arc.1, some u) :: s.prev
        pq := pqPush s.pq (nc, arc.1) }
    match look s.dist arc.1 with
    | none => upd
    | some dv => if nc < dv then upd else s

def relaxAll (adj : Adj) (u : String) (s : St) : St :=
  (arcsOf adj u).foldl (relaxStep u) s

/-- The `while pq:` loop of `compute_route`, fuel-indexed; `none` means the
fuel ran out before the loop finished (or, impossibly, a queued node had no
dist entry, where Python would raise KeyError). -/
def loop (adj : Adj) (dest : String) : ℕ → St → Option St
  | 0, _ => none
  | fuel + 1, s =>
    match s.pq with
    | [] => some s
    | (c, u) :: rest =>
      let s1 : St := { s with pq := rest }
      if u = dest then some s1
      else
        match look s1.dist u with
        | none => none
        | some du =>
          if du < c then loop adj dest fuel s1
          else loop adj dest fuel (relaxAll adj u s1)

/-- Backward walk over `prev` from the destination
(`while current is not None: path_ids.append(current); current = prev.get(current)`);
produces the reversed path.  `none` = fuel exhausted, i.e. the walk did not
finish (a cyclic `prev` would loop forever in Python; it cannot occur). -/
def walkPrev (prev : List (String × Option String)) : ℕ → Option String → Option (List String)
  | _, none => some []
  | 0, some _ => none
  | fuel + 1, some c =>
    match walkPrev prev fuel ((look prev c).join) with
    | none => none
    | some l => some (c :: l)

/-- `[coords[nid] for nid in path_ids]`; `.error n` is the uncaught KeyError
raised at the first node without a coordinate record. -/
def pathCoords (coords : Coords) : List String → Except String (List (List ℚ))
  | [] => Except.ok []
  | n :: ns =>
    match look coords n with
    | none => Except.error n
    | some c =>
      match pathCoords coords ns with
      | Except.error m => Except.error m
      | Except.ok cs => Except.ok (c :: cs)

structure RouteResult where
  path : List String
  coordinates : List (List ℚ)
  total_cost : ℚ
  mode : Mode
  ada_required : Bool
  hazards_bypassed : ℕ
deriving DecidableEq, Repr

inductive RouteOutcome where
  | ok (r : RouteResult)
  | nodeNotFound (id : String)   -- ValueError "… not found in graph"
  | noPath                        -- ValueError "No path between …"
  | keyError (id : String)        -- uncaught KeyError (coords lookup)
deriving DecidableEq, Repr

/-- backend/engines/dijkstra.py `compute_route`.  `fuel` bounds the number of
iterations of the main loop; `none` means the bound was hit first. -/
def compute_route (inters : List Intersection) (streets : List Street)
    (origin destination : String) (mode : Mode) (ada_required : Bool)
    (fuel : ℕ) : Option RouteOutcome :=
  let b := build_adjacency_list inters streets mode ada_required
  let adj := b.1
  let coords := b.2.1
  let hazards_bypassed := b.2.2
  if (look adj origin).isNone then some (RouteOutcome.nodeNotFound origin)
  else if (look adj destination).isNone then some (RouteOutcome.nodeNotFound destination)
  else
    let s0 : St := ⟨[(origin, 0)], [(origin, none)], [(0, origin)]⟩
    match loop adj destination fuel s0 with
    | none => none
    | some s =>
      if (look s.prev destination).isNone then some RouteOutcome.noPath
      else
        match walkPrev s.prev (s.prev.length + 1) (some destination) with
        | none => none
        | some revPath =>
          let path := revPath.reverse
          match pathCoords coords path with
          | Except.error n => some (RouteOutcome.keyError n)
          | Except.ok cs =>
            some (RouteOutcome.ok
              { path := path
                coordinates := cs
                total_cost := round4 ((look s.dist destination).getD 0)
                mode := mode
                ada_required := ada_required
                hazards_bypassed := hazards_bypassed })

/-! ## Hazard weight blender (_update_danger_scores) -/

/-- Substring test on character lists. -/
def containsSub (p : List Char) : List Char → Bool
  | [] => p.isEmpty
  | c :: t => List.isPrefixOf p (c :: t) || containsSub p t

/-- One pattern character against one name character, under the regex
option "i": the `.` wildcard matches any character except a newline, and a
literal character matches case-insensitively. -/
def regexCharMatch (pc c : Char) : Bool :=
  if pc = '.' then decide (c ≠ '\n') else decide (pc.toLower = c.toLower)

/-- The pattern matched against the start of the name suffix. -/
def matchHere : List Char → List Char → Bool
  | [], _ => true
  | _ :: _, [] => false
  | pc :: ps, c :: cs => regexCharMatch pc c && matchHere ps cs

/-- Unanchored search: the pattern matched at some position of the name. -/
def regexSearch (p : List Char) : List Char → Bool
  | [] => p.isEmpty
  | c :: cs => matchHere p (c :: cs) || regexSearch p cs

/-- The Mongo query the source issues, a case-insensitive regex search of
the pattern over the name field.  Modelled fragment: patterns built from
literal characters and the `.` wildcard, with the PCRE semantics of an
unanchored case-insensitive search; the other PCRE operators are not
modelled, and the theorems below only quantify over patterns free of every
regex metacharacter, where the fragment is faithful. -/
def nameMatches (pattern name : String) : Bool :=
  regexSearch pattern.toList name.toList

/-- The selection the spec describes: the name contains the pattern as a
case-insensitive substring.  Stated from the spec's words, to be compared
with the source's regex selection. -/
def substrMatches (pattern name : String) : Bool :=
  containsSub (pattern.toList.map Char.toLower) (name.toList.map Char.toLower)

/-- The PCRE regex metacharacters. -/
def regexMetachars : List Char :=
  ['\\', '^', '$', '.', '|', '?', '*', '+', '(', ')', '[', ']', '\x7b', '\x7d']

def isMetachar (c : Char) : Bool := regexMetachars.contains c

/-- `min(100.0, round(0.6 * old_score + 0.4 * severity, 2))`; Python's min
keeps the first argument on ties. -/
def blendScore (severity : ℤ) (old_score : ℚ) : ℚ :=
  let r := round2 (6/10 * old_score + 4/10 * (severity : ℚ))
  if r < 100 then r else 100

/-- backend/app/services/gemini.py `_update_danger_scores`: returns the
street collection after the updates together with the update count. -/
def update_danger_scores (streets : List Street) (street_name : String)
    (severity : ℤ) : List Street × ℕ :=
  match streets with
  | [] => ([], 0)
  | e :: rest =>
    let r := update_danger_scores rest street_name severity
    if nameMatches street_name e.name then
      ({ e with danger_score := blendScore severity e.danger_score } :: r.1, r.2 + 1)
    else
      (e :: r.1, r.2)

/-! ## The spec's 4-node scenario store -/

def nodeA : Intersection := ⟨"A", [0, 0]⟩
def nodeB : Intersection := ⟨"B", [1, 0]⟩
def nodeC : Intersection := ⟨"C", [0, 1]⟩
def nodeD : Intersection := ⟨"D", [1, 1]⟩

def edgeAB : Street :=
  { name := "AB", start_intersection_id := "A", end_intersection_id := "B",
    distance_m := 280, danger_score := 5 }
def edgeAC : Street :=
  { name := "AC", start_intersection_id := "A", end_intersection_id := "C",
    distance_m := 270, danger_score := 10 }
def edgeBD : Street :=
  { name := "BD", start_intersection_id := "B", end_intersection_id := "D",
    distance_m := 270, danger_score := 15 }
def edgeCD : Street :=
  { name := "CD", start_intersection_id := "C", end_intersection_id := "D",
    distance_m := 280, danger_score := 8 }

def scenarioNodes : List Intersection := [nodeA, nodeB, nodeC, nodeD]

def scenarioStreets : List Street := [edgeAB, edgeAC, edgeBD, edgeCD]

/-- Same store with the B–D edge marked inaccessible. -/
def scenarioStreetsAda : List Street :=
  [edgeAB, edgeAC, { edgeBD with is_accessible := false }, edgeCD]

/-- A store holding no intersection records and one street between the
otherwise-unknown node ids X and Y. -/
def edgeXY : Street :=
  { name := "XY", start_intersection_id := "X", end_intersection_id := "Y",
    distance_m := 5, danger_score := 3 }

/-- The single edge of the hazard-blend scenario. -/
def edge5thAvenue : Street :=
  { name := "5th Avenue", start_intersection_id := "P", end_intersection_id := "Q",
    distance_m := 100, danger_score := 45 }


/-! ## Rounding helper lemmas -/

theorem rhe_intCast (n : ℤ) : rhe (n : ℚ) = n := by
  unfold rhe
  norm_num [Int.floor_intCast]

theorem round4_intCast (n : ℤ) : round4 (n : ℚ) = n := by
  unfold round4
  rw [show ((n : ℚ) * 10000) = ((n * 10000 : ℤ) : ℚ) by push_cast; ring]
  rw [rhe_intCast]
  push_cast
  rw [mul_div_assoc]
  norm_num

theorem round2_intCast (n : ℤ) : round2 (n : ℚ) = n := by
  unfold round2
  rw [show ((n : ℚ) * 100) = ((n * 100 : ℤ) : ℚ) by push_cast; ring]
  rw [rhe_intCast]
  push_cast
  rw [mul_div_assoc]
  norm_num

/-! ## Concrete evaluation of the scenario runs

The solver state after each pop of the main loop, taken literally; each
step lemma performs one loop iteration. -/

def adjSafest : Adj :=
  [("A", [("B", 5), ("C", 10)]), ("B", [("A", 5), ("D", 15)]),
   ("C", [("A", 10), ("D", 8)]), ("D", [("B", 15), ("C", 8)])]

def coordsScenario : Coords := [("A", [0, 0]), ("B", [1, 0]), ("C", [0, 1]), ("D", [1, 1])]

theorem buildSafest_eq :
    build_adjacency_list scenarioNodes scenarioStreets Mode.safest false =
      (adjSafest, coordsScenario, 0) := by
  simp only [build_adjacency_list, edgesFold, edgeStep, addArc, seedNode, setTo, look,
    scenarioNodes, scenarioStreets, nodeA, nodeB, nodeC, nodeD,
    edgeAB, edgeAC, edgeBD, edgeCD, adjSafest, coordsScenario, List.foldl,
    String.reduceEq, reduceIte]
  norm_num

def stStart : St := ⟨[("A", 0)], [("A", none)], [(0, "A")]⟩

theorem relaxSafestA :
    relaxAll adjSafest "A" ⟨[("A", 0)], [("A", none)], []⟩ =
      ⟨[("C", 10), ("B", 5), ("A", 0)], [("C", some "A"), ("B", some "A"), ("A", none)],
        [(5, "B"), (10, "C")]⟩ := by
  simp only [relaxAll, relaxStep, arcsOf, look, pqPush, adjSafest, List.foldl,
    String.reduceEq, reduceIte, Option.getD]
  try norm_num
  try simp only [look, pqPush, String.reduceEq, reduceIte]
  try norm_num

theorem relaxSafestB :
    relaxAll adjSafest "B"
      ⟨[("C", 10), ("B", 5), ("A", 0)], [("C", some "A"), ("B", some "A"), ("A", none)],
        [(10, "C")]⟩ =
      ⟨[("D", 20), ("C", 10), ("B", 5), ("A", 0)],
        [("D", some "B"), ("C", some "A"), ("B", some "A"), ("A", none)],
        [(10, "C"), (20, "D")]⟩ := by
  simp only [relaxAll, relaxStep, arcsOf, look, pqPush, adjSafest, List.foldl,
    String.reduceEq, reduceIte, Option.getD]
  try norm_num
  try simp only [look, pqPush, String.reduceEq, reduceIte]
  try norm_num
  try simp only [look, pqPush, String.reduceEq, reduceIte]
  try norm_num

theorem relaxSafestC :
    relaxAll adjSafest "C"
      ⟨[("D", 20), ("C", 10), ("B", 5), ("A", 0)],
        [("D", some "B"), ("C", some "A"), ("B", some "A"), ("A", none)],
        [(20, "D")]⟩ =
      ⟨[("D", 18), ("D", 20), ("C", 10), ("B", 5), ("A", 0)],
        [("D", some "C"), ("D", some "B"), ("C", some "A"), ("B", some "A"), ("A", none)],
        [(18, "D"), (20, "D")]⟩ := by
  simp only [relaxAll, relaxStep, arcsOf, look, pqPush, adjSafest, List.foldl,
    String.reduceEq, reduceIte, Option.getD]
  try norm_num
  try simp only [look, pqPush, String.reduceEq, reduceIte]
  try norm_num
  try simp only [look, pqPush, String.reduceEq, reduceIte]
  try norm_num

theorem loopSafest :
    loop adjSafest "D" 10 stStart =
      some ⟨[("D", 18), ("D", 20), ("C", 10), ("B", 5), ("A", 0)],
        [("D", some "C"), ("D", some "B"), ("C", some "A"), ("B", some "A"), ("A", none)],
        [(20, "D")]⟩ := by
  rw [loop]
  simp only [stStart, String.reduceEq, reduceIte, look, lt_self_iff_false]
  rw [relaxSafestA, loop]
  simp only [String.reduceEq, reduceIte, look, lt_self_iff_false]
  rw [relaxSafestB, loop]
  simp only [String.reduceEq, reduceIte, look, lt_self_iff_false]
  rw [relaxSafestC, loop]
  simp only [String.reduceEq, reduceIte]

theorem round4_eq_18 : round4 (18 : ℚ) = 18 := by exact_mod_cast round4_intCast 18

theorem computeSafest :
    compute_route scenarioNodes scenarioStreets "A" "D" Mode.safest false 10 =
      some (RouteOutcome.ok
        { path := ["A", "C", "D"], coordinates := [[0, 0], [0, 1], [1, 1]],
          total_cost := 18, mode := Mode.safest, ada_required := false,
          hazards_bypassed := 0 }) := by
  simp only [compute_route, buildSafest_eq]
  rw [show (⟨[("A", 0)], [("A", none)], [(0, "A")]⟩ : St) = stStart from rfl, loopSafest]
  simp only [walkPrev, pathCoords, look, adjSafest, coordsScenario, Option.join,
    Option.isNone, Option.getD, List.reverse, List.reverseAux,
    String.reduceEq, reduceIte, List.length, round4_eq_18, Bool.false_eq_true]

def adjShortest : Adj :=
  [("A", [("B", 280), ("C", 270)]), ("B", [("A", 280), ("D", 270)]),
   ("C", [("A", 270), ("D", 280)]), ("D", [("B", 270), ("C", 280)])]

theorem buildShortest_eq :
    build_adjacency_list scenarioNodes scenarioStreets Mode.shortest false =
      (adjShortest, coordsScenario, 0) := by
  simp only [build_adjacency_list, edgesFold, edgeStep, addArc, seedNode, setTo, look,
    scenarioNodes, scenarioStreets, nodeA, nodeB, nodeC, nodeD,
    edgeAB, edgeAC, edgeBD, edgeCD, adjShortest, coordsScenario, List.foldl,
    String.reduceEq, reduceIte, reduceCtorEq]
  norm_num

theorem relaxShortestA :
    relaxAll adjShortest "A" ⟨[("A", 0)], [("A", none)], []⟩ =
      ⟨[("C", 270), ("B", 280), ("A", 0)], [("C", some "A"), ("B", some "A"), ("A", none)],
        [(270, "C"), (280, "B")]⟩ := by
  simp only [relaxAll, relaxStep, arcsOf, look, pqPush, adjShortest, List.foldl,
    String.reduceEq, reduceIte, Option.getD]
  try norm_num
  try simp only [look, pqPush, String.reduceEq, reduceIte]
  try norm_num

theorem relaxShortestC :
    relaxAll adjShortest "C"
      ⟨[("C", 270), ("B", 280), ("A", 0)], [("C", some "A"), ("B", some "A"), ("A", none)],
        [(280, "B")]⟩ =
      ⟨[("D", 550), ("C", 270), ("B", 280), ("A", 0)],
        [("D", some "C"), ("C", some "A"), ("B", some "A"), ("A", none)],
        [(280, "B"), (550, "D")]⟩ := by
  simp only [relaxAll, relaxStep, arcsOf, look, pqPush, adjShortest, List.foldl,
    String.reduceEq, reduceIte, Option.getD]
  try norm_num
  try simp only [look, pqPush, String.reduceEq, reduceIte]
  try norm_num
  try simp only [look, pqPush, String.reduceEq, reduceIte]
  try norm_num

theorem relaxShortestB :
    relaxAll adjShortest "B"
      ⟨[("D", 550), ("C", 270), ("B", 280), ("A", 0)],
        [("D", some "C"), ("C", some "A"), ("B", some "A"), ("A", none)],
        [(550, "D")]⟩ =
      ⟨[("D", 550), ("C", 270), ("B", 280), ("A", 0)],
        [("D", some "C"), ("C", some "A"), ("B", some "A"), ("A", none)],
        [(550, "D")]⟩ := by
  simp only [relaxAll, relaxStep, arcsOf, look, pqPush, adjShortest, List.foldl,
    String.reduceEq, reduceIte, Option.getD]
  try norm_num
  try simp only [look, pqPush, String.reduceEq, reduceIte]
  try norm_num

theorem loopShortest :
    loop adjShortest "D" 10 stStart =
      some ⟨[("D", 550), ("C", 270), ("B", 280), ("A", 0)],
        [("D", some "C"), ("C", some "A"), ("B", some "A"), ("A", none)], []⟩ := by
  rw [loop]
  simp only [stStart, String.reduceEq, reduceIte, look, lt_self_iff_false]
  rw [relaxShortestA, loop]
  simp only [String.reduceEq, reduceIte, look, lt_self_iff_false]
  rw [relaxShortestC, loop]
  simp only [String.reduceEq, reduceIte, look, lt_self_iff_false]
  rw [relaxShortestB, loop]
  simp only [String.reduceEq, reduceIte]

theorem round4_eq_550 : round4 (550 : ℚ) = 550 := by exact_mod_cast round4_intCast 550

theorem computeShortest :
    compute_route scenarioNodes scenarioStreets "A" "D" Mode.shortest false 10 =
      some (RouteOutcome.ok
        { path := ["A", "C", "D"], coordinates := [[0, 0], [0, 1], [1, 1]],
          total_cost := 550, mode := Mode.shortest, ada_required := false,
          hazards_bypassed := 0 }) := by
  simp only [compute_route, buildShortest_eq]
  rw [show (⟨[("A", 0)], [("A", none)], [(0, "A")]⟩ : St) = stStart from rfl, loopShortest]
  simp only [walkPrev, pathCoords, look, adjShortest, coordsScenario, Option.join,
    Option.isNone, Option.getD, List.reverse, List.reverseAux,
    String.reduceEq, reduceIte, List.length, round4_eq_550, Bool.false_eq_true]

def adjAda : Adj :=
  [("A", [("B", 5), ("C", 10)]), ("B", [("A", 5)]), ("C", [("A", 10), ("D", 8)]),
   ("D", [("C", 8)])]

theorem buildAda_eq :
    build_adjacency_list scenarioNodes scenarioStreetsAda Mode.safest true =
      (adjAda, coordsScenario, 1) := by
  simp only [build_adjacency_list, edgesFold, edgeStep, addArc, seedNode, setTo, look,
    scenarioNodes, scenarioStreetsAda, nodeA, nodeB, nodeC, nodeD,
    edgeAB, edgeAC, edgeBD, edgeCD, adjAda, coordsScenario, List.foldl,
    String.reduceEq, reduceIte]
  norm_num

theorem relaxAdaA :
    relaxAll adjAda "A" ⟨[("A", 0)], [("A", none)], []⟩ =
      ⟨[("C", 10), ("B", 5), ("A", 0)], [("C", some "A"), ("B", some "A"), ("A", none)],
        [(5, "B"), (10, "C")]⟩ := by
  simp only [relaxAll, relaxStep, arcsOf, look, pqPush, adjAda, List.foldl,
    String.reduceEq, reduceIte, Option.getD]
  try norm_num
  try simp only [look, pqPush, String.reduceEq, reduceIte]
  try norm_num

theorem relaxAdaB :
    relaxAll adjAda "B"
      ⟨[("C", 10), ("B", 5), ("A", 0)], [("C", some "A"), ("B", some "A"), ("A", none)],
        [(10, "C")]⟩ =
      ⟨[("C", 10), ("B", 5), ("A", 0)], [("C", some "A"), ("B", some "A"), ("A", none)],
        [(10, "C")]⟩ := by
  simp only [relaxAll, relaxStep, arcsOf, look, pqPush, adjAda, List.foldl,
    String.reduceEq, reduceIte, Option.getD]
  try norm_num
  try simp only [look, pqPush, String.reduceEq, reduceIte]
  try norm_num

theorem relaxAdaC :
    relaxAll adjAda "C"
      ⟨[("C", 10), ("B", 5), ("A", 0)], [("C", some "A"), ("B", some "A"), ("A", none)],
        []⟩ =
      ⟨[("D", 18), ("C", 10), ("B", 5), ("A", 0)],
        [("D", some "C"), ("C", some "A"), ("B", some "A"), ("A", none)],
        [(18, "D")]⟩ := by
  simp only [relaxAll, relaxStep, arcsOf, look, pqPush, adjAda, List.foldl,
    String.reduceEq, reduceIte, Option.getD]
  try norm_num
  try simp only [look, pqPush, String.reduceEq, reduceIte]
  try norm_num

theorem loopAda :
    loop adjAda "D" 10 stStart =
      some ⟨[("D", 18), ("C", 10), ("B", 5), ("A", 0)],
        [("D", some "C"), ("C", some "A"), ("B", some "A"), ("A", none)], []⟩ := by
  rw [loop]
  simp only [stStart, String.reduceEq, reduceIte, look, lt_self_iff_false]
  rw [relaxAdaA, loop]
  simp only [String.reduceEq, reduceIte, look, lt_self_iff_false]
  rw [relaxAdaB, loop]
  simp only [String.reduceEq, reduceIte, look, lt_self_iff_false]
  rw [relaxAdaC, loop]
  simp only [String.reduceEq, reduceIte]

theorem computeAda :
    compute_route scenarioNodes scenarioStreetsAda "A" "D" Mode.safest true 10 =
      some (RouteOutcome.ok
        { path := ["A", "C", "D"], coordinates := [[0, 0], [0, 1], [1, 1]],
          total_cost := 18, mode := Mode.safest, ada_required := true,
          hazards_bypassed := 1 }) := by
  simp only [compute_route, buildAda_eq]
  rw [show (⟨[("A", 0)], [("A", none)], [(0, "A")]⟩ : St) = stStart from rfl, loopAda]
  simp only [walkPrev, pathCoords, look, adjAda, coordsScenario, Option.join,
    Option.isNone, Option.getD, List.reverse, List.reverseAux,
    String.reduceEq, reduceIte, List.length, round4_eq_18, Bool.false_eq_true]

/-! ## Walks in an adjacency structure

`Walk adj u v l c`: `l` lists the nodes of a walk from `u` to `v` (inclusive)
whose arcs are drawn from `adj` and whose weights sum to `c`.  The spec's
"paths" between two nodes are exactly these walks. -/

inductive Walk (adj : Adj) : String → String → List String → ℚ → Prop where
  | single (u : String) : Walk adj u u [u] 0
  | cons {u v x : String} {l : List String} {c w : ℚ} :
      Walk adj u v l c → (x, w) ∈ arcsOf adj v → Walk adj u x (l ++ [x]) (c + w)

theorem Walk.concat_shape {adj : Adj} {u v : String} {l : List String} {c : ℚ}
    (h : Walk adj u v l c) : ∃ t, l = t ++ [v] := by
  induction h with
  | single => exact ⟨[], rfl⟩
  | cons _ _ _ => exact ⟨_, rfl⟩

theorem Walk.end_mem {adj : Adj} {u v : String} {l : List String} {c : ℚ}
    (h : Walk adj u v l c) : v ∈ l := by
  obtain ⟨t, rfl⟩ := h.concat_shape
  simp

theorem Walk.cost_nonneg {adj : Adj} (hw : ∀ z x w, (x, w) ∈ arcsOf adj z → 0 ≤ w)
    {u v : String} {l : List String} {c : ℚ} (h : Walk adj u v l c) : 0 ≤ c := by
  induction h with
  | single => exact le_refl 0
  | cons _ harc ih => exact add_nonneg ih (hw _ _ _ harc)

/-! ## Association-list lemmas -/

theorem look_cons {α : Type} (k : String) (v : α) (l : List (String × α)) (a : String) :
    look ((k, v) :: l) a = if a = k then some v else look l a := rfl

theorem look_cons_self {α : Type} (k : String) (v : α) (l : List (String × α)) :
    look ((k, v) :: l) k = some v := by
  simp [look_cons]

theorem look_cons_ne {α : Type} {k a : String} (v : α) (l : List (String × α))
    (h : a ≠ k) : look ((k, v) :: l) a = look l a := by
  simp [look_cons, h]

/-! ## Priority-queue lemmas -/

theorem pqPush_mem (pq : List (ℚ × String)) (it e : ℚ × String) :
    e ∈ pqPush pq it ↔ e ∈ pq ∨ e = it := by
  induction pq with
  | nil => simp [pqPush, eq_comm]
  | cons x xs ih =>
    by_cases h : it.1 < x.1
    · simp only [pqPush, if_pos h, List.mem_cons]
      tauto
    · simp only [pqPush, if_neg h, List.mem_cons, ih]
      tauto

/-- `pqPush` keeps the queue sorted: `Pairwise (keys ≤)`. -/
theorem pqPush_pairwise {pq : List (ℚ × String)} (it : ℚ × String)
    (h : pq.Pairwise (fun a b => a.1 ≤ b.1)) :
    (pqPush pq it).Pairwise (fun a b => a.1 ≤ b.1) := by
  induction pq with
  | nil => simp [pqPush]
  | cons x xs ih =>
    rcases List.pairwise_cons.mp h with ⟨hx, hxs⟩
    by_cases hlt : it.1 < x.1
    · simp only [pqPush, if_pos hlt]
      refine List.pairwise_cons.mpr ⟨?_, h⟩
      intro b hb
      rcases List.mem_cons.mp hb with rfl | hb
      · exact le_of_lt hlt
      · exact le_trans (le_of_lt hlt) (hx b hb)
    · simp only [pqPush, if_neg hlt]
      refine List.pairwise_cons.mpr ⟨?_, ih hxs⟩
      intro b hb
      rcases (pqPush_mem xs it b).mp hb with hb | rfl
      · exact hx b hb
      · exact le_of_not_lt hlt

/-! ## Dijkstra loop invariant

`S` is the ghost list of settled nodes (nodes popped with an up-to-date cost,
whose outgoing arcs have all been relaxed). -/

/-- Arc weights are nonnegative (the snapshot guarantees ≥ 1/100). -/
def NonnegArcs (adj : Adj) : Prop := ∀ z x w, (x, w) ∈ arcsOf adj z → 0 ≤ w

structure LoopInv (adj : Adj) (origin : String) (S : List String) (s : St) : Prop where
  sorted : s.pq.Pairwise (fun a b => a.1 ≤ b.1)
  qdist : ∀ k v, (k, v) ∈ s.pq → ∃ dv, look s.dist v = some dv ∧ dv ≤ k
  settled_opt : ∀ v ∈ S, ∃ dv, look s.dist v = some dv ∧
      ∀ l c, Walk adj origin v l c → dv ≤ c
  sound : ∀ v dv, look s.dist v = some dv → ∃ l, Walk adj origin v l dv
  fresh : ∀ v dv, v ∉ S → look s.dist v = some dv → (dv, v) ∈ s.pq
  origin0 : look s.dist origin = some 0
  relaxed : ∀ z ∈ S, ∀ x w, (x, w) ∈ arcsOf adj z →
      ∃ dz dx, look s.dist z = some dz ∧ look s.dist x = some dx ∧ dx ≤ dz + w
  prev_arc : ∀ v u, look s.prev v = some (some u) →
      ∃ w du dv, (v, w) ∈ arcsOf adj u ∧ look s.dist u = some du ∧
        look s.dist v = some dv ∧ du + w ≤ dv
  prev_none : ∀ v, look s.prev v = some none → v = origin
  prev_keys : ∀ v, (look s.prev v).isSome ↔ (look s.dist v).isSome

/-- Any walk whose nodes before the endpoint are all settled has its endpoint's
recorded cost at most the walk's cost. -/
theorem walk_bound_settled {adj : Adj} {origin : String} {S : List String} {s : St}
    (inv : LoopInv adj origin S s) {v : String} {l : List String} {c : ℚ}
    (h : Walk adj origin v l c) (hl : ∀ n ∈ l.dropLast, n ∈ S) :
    ∃ dv, look s.dist v = some dv ∧ dv ≤ c := by
  induction h with
  | single => exact ⟨0, inv.origin0, le_refl 0⟩
  | @cons v x l c w hwalk harc ih =>
    rw [List.dropLast_concat] at hl
    have hvS : v ∈ S := hl v hwalk.end_mem
    have hsub : ∀ n ∈ l.dropLast, n ∈ S := fun n hn =>
      hl n ((List.dropLast_sublist l).subset hn)
    obtain ⟨dv, hdv, hdvc⟩ := ih hsub
    obtain ⟨dz, dx, hdz, hdx, hle⟩ := inv.relaxed v hvS x w harc
    rw [hdv] at hdz
    injection hdz with hdz
    refine ⟨dx, hdx, le_trans hle ?_⟩
    rw [← hdz]
    linarith

/-- Any walk either stays inside the settled region (except its endpoint), or
has a prefix reaching a first unsettled node, the remaining cost nonnegative. -/
theorem walk_split {adj : Adj} (S : List String) {origin v : String}
    {l : List String} {c : ℚ} (hw : NonnegArcs adj) (h : Walk adj origin v l c) :
    (∀ n ∈ l.dropLast, n ∈ S) ∨
    ∃ w2 l2 c1 c2, Walk adj origin w2 l2 c1 ∧ (∀ n ∈ l2.dropLast, n ∈ S) ∧
      w2 ∉ S ∧ c = c1 + c2 ∧ 0 ≤ c2 := by
  induction h with
  | single => left; simp
  | @cons v x l c w hwalk harc ih =>
    rcases ih with hl | ⟨w2, l2, c1, c2, hwlk2, hl2, hw2, hceq, hc2⟩
    · by_cases hvS : v ∈ S
      · left
        rw [List.dropLast_concat]
        intro n hn
        obtain ⟨t, ht⟩ := hwalk.concat_shape
        have htl : l.dropLast = t := by rw [ht, List.dropLast_concat]
        rw [ht] at hn
        rcases List.mem_append.mp hn with hn | hn
        · exact hl n (htl ▸ hn)
        · rcases List.mem_singleton.mp hn with rfl
          exact hvS
      · exact Or.inr ⟨v, l, c, w, hwalk, hl, hvS, rfl, hw _ _ _ harc⟩
    · exact Or.inr ⟨w2, l2, c1, c2 + w, hwlk2, hl2, hw2, by rw [hceq]; ring,
        add_nonneg hc2 (hw _ _ _ harc)⟩

/-- Popping the head of the queue: the recorded cost of the popped node is a
lower bound on the cost of every walk to it. -/
theorem pop_min_opt {adj : Adj} {origin : String} {S : List String} {s : St}
    (hw : NonnegArcs adj) (inv : LoopInv adj origin S s)
    {c : ℚ} {u : String} {rest : List (ℚ × String)} (hpq : s.pq = (c, u) :: rest)
    {du : ℚ} (hdu : look s.dist u = some du) :
    ∀ l cp, Walk adj origin u l cp → du ≤ cp := by
  intro l cp hwalk
  have hhead : (c, u) ∈ s.pq := by rw [hpq]; exact List.mem_cons_self _ _
  obtain ⟨du', hdu', hduc⟩ := inv.qdist c u hhead
  rw [hdu] at hdu'
  injection hdu' with hdu'
  subst hdu'
  rcases walk_split S hw hwalk with hl | ⟨w2, l2, c1, c2, hwlk2, hl2, hw2, hceq, hc2⟩
  · obtain ⟨dv, hdv, hdvc⟩ := walk_bound_settled inv hwalk hl
    rw [hdu] at hdv
    injection hdv with hdv
    rw [hdv]
    exact hdvc
  · obtain ⟨dw2, hdw2, hdw2c⟩ := walk_bound_settled inv hwlk2 hl2
    have hmem : (dw2, w2) ∈ s.pq := inv.fresh w2 dw2 hw2 hdw2
    have hcle : c ≤ dw2 := by
      rw [hpq] at hmem
      rcases List.mem_cons.mp hmem with heq | hmem
      · injection heq with h1 h2
        exact le_of_eq h1.symm
      · have hsorted : List.Pairwise (fun a b : ℚ × String => a.1 ≤ b.1) ((c, u) :: rest) :=
          hpq ▸ inv.sorted
        exact (List.pairwise_cons.mp hsorted).1 (dw2, w2) hmem
    calc du ≤ c := hduc
      _ ≤ dw2 := hcle
      _ ≤ c1 := hdw2c
      _ ≤ c1 + c2 := le_add_of_nonneg_right hc2
      _ = cp := hceq.symm

theorem look_unique {α : Type} {m : List (String × α)} {k : String} {a b : α}
    (h1 : look m k = some a) (h2 : look m k = some b) : a = b := by
  rw [h1] at h2
  injection h2

/-- Invariant holding while the arcs of the freshly settled node `u` are being
relaxed; `done` lists the arcs already processed. -/
structure RelaxInv (adj : Adj) (origin : String) (S : List String) (u : String)
    (du : ℚ) (done : List (String × ℚ)) (s : St) : Prop where
  sorted : s.pq.Pairwise (fun a b => a.1 ≤ b.1)
  qdist : ∀ k v, (k, v) ∈ s.pq → ∃ dv, look s.dist v = some dv ∧ dv ≤ k
  settled_opt : ∀ v ∈ u :: S, ∃ dv, look s.dist v = some dv ∧
      ∀ l c, Walk adj origin v l c → dv ≤ c
  sound : ∀ v dv, look s.dist v = some dv → ∃ l, Walk adj origin v l dv
  fresh : ∀ v dv, v ∉ u :: S → look s.dist v = some dv → (dv, v) ∈ s.pq
  origin0 : look s.dist origin = some 0
  relaxed_old : ∀ z ∈ S, ∀ x w, (x, w) ∈ arcsOf adj z →
      ∃ dz dx, look s.dist z = some dz ∧ look s.dist x = some dx ∧ dx ≤ dz + w
  prev_arc : ∀ v u2, look s.prev v = some (some u2) →
      ∃ w du2 dv, (v, w) ∈ arcsOf adj u2 ∧ look s.dist u2 = some du2 ∧
        look s.dist v = some dv ∧ du2 + w ≤ dv
  prev_none : ∀ v, look s.prev v = some none → v = origin
  prev_keys : ∀ v, (look s.prev v).isSome ↔ (look s.dist v).isSome
  dist_u : look s.dist u = some du
  relaxed_done : ∀ x w, (x, w) ∈ done → ∃ dx, look s.dist x = some dx ∧ dx ≤ du + w

/-- A successful relaxation (the strict-improvement branch) preserves the
relaxation invariant. -/
theorem relax_update_pres {adj : Adj} {origin : String} {S : List String}
    {u x : String} {du w : ℚ} {done : List (String × ℚ)} {s : St}
    (hw : NonnegArcs adj) (harc : (x, w) ∈ arcsOf adj u)
    (rinv : RelaxInv adj origin S u du done s)
    (hcase : look s.dist x = none ∨ ∃ dv, look s.dist x = some dv ∧ du + w < dv) :
    RelaxInv adj origin S u du ((x, w) :: done)
      ⟨(x, du + w) :: s.dist, (x, some u) :: s.prev, pqPush s.pq (du + w, x)⟩ := by
  have hw0 : 0 ≤ w := hw u x w harc
  have hdu0 : 0 ≤ du := by
    obtain ⟨l, hwalk⟩ := rinv.sound u du rinv.dist_u
    exact hwalk.cost_nonneg hw
  have hnc0 : 0 ≤ du + w := add_nonneg hdu0 hw0
  have hxu : x ≠ u := by
    intro h
    subst h
    rcases hcase with hnone | ⟨dv, hdv, hlt⟩
    · rw [rinv.dist_u] at hnone
      exact Option.noConfusion hnone
    · have := look_unique hdv rinv.dist_u
      subst this
      linarith
  have hxorigin : x ≠ origin := by
    intro h
    subst h
    rcases hcase with hnone | ⟨dv, hdv, hlt⟩
    · rw [rinv.origin0] at hnone
      exact Option.noConfusion hnone
    · have := look_unique hdv rinv.origin0
      subst this
      linarith
  have hxS : x ∉ u :: S := by
    intro hmem
    obtain ⟨dxo, hdxo, hopt⟩ := rinv.settled_opt x hmem
    obtain ⟨l, hwalk⟩ := rinv.sound u du rinv.dist_u
    have hwx : Walk adj origin x (l ++ [x]) (du + w) := Walk.cons hwalk harc
    have := hopt _ _ hwx
    rcases hcase with hnone | ⟨dv, hdv, hlt⟩
    · rw [hdxo] at hnone
      exact Option.noConfusion hnone
    · have heq := look_unique hdv hdxo
      subst heq
      linarith
  refine
    { sorted := pqPush_pairwise _ rinv.sorted
      qdist := ?_
      settled_opt := ?_
      sound := ?_
      fresh := ?_
      origin0 := by rw [look_cons_ne _ _ hxorigin.symm]; exact rinv.origin0
      relaxed_old := ?_
      prev_arc := ?_
      prev_none := ?_
      prev_keys := ?_
      dist_u := by rw [look_cons_ne _ _ hxu.symm]; exact rinv.dist_u
      relaxed_done := ?_ }
  · -- qdist
    intro k v hkv
    rcases (pqPush_mem _ _ _).mp hkv with hold | hnew
    · obtain ⟨dv', hdv', hle⟩ := rinv.qdist k v hold
      by_cases hvx : v = x
      · subst hvx
        refine ⟨du + w, look_cons_self _ _ _, ?_⟩
        rcases hcase with hnone | ⟨dv, hdv, hlt⟩
        · rw [hdv'] at hnone
          exact Option.noConfusion hnone
        · have := look_unique hdv' hdv
          subst this
          linarith
      · exact ⟨dv', by rw [look_cons_ne _ _ hvx]; exact hdv', hle⟩
    · injection hnew with h1 h2
      subst h1
      subst h2
      exact ⟨du + w, look_cons_self _ _ _, le_refl _⟩
  · -- settled_opt
    intro v hv
    obtain ⟨dv, hdv, hopt⟩ := rinv.settled_opt v hv
    have hvx : v ≠ x := fun h => hxS (h ▸ hv)
    exact ⟨dv, by rw [look_cons_ne _ _ hvx]; exact hdv, hopt⟩
  · -- sound
    intro v dv hdv
    by_cases hvx : v = x
    · subst hvx
      rw [look_cons_self] at hdv
      injection hdv with hdv
      subst hdv
      obtain ⟨l, hwalk⟩ := rinv.sound u du rinv.dist_u
      exact ⟨l ++ [v], Walk.cons hwalk harc⟩
    · rw [look_cons_ne _ _ hvx] at hdv
      exact rinv.sound v dv hdv
  · -- fresh
    intro v dv hv hdv
    by_cases hvx : v = x
    · subst hvx
      rw [look_cons_self] at hdv
      injection hdv with hdv
      subst hdv
      exact (pqPush_mem _ _ _).mpr (Or.inr rfl)
    · rw [look_cons_ne _ _ hvx] at hdv
      exact (pqPush_mem _ _ _).mpr (Or.inl (rinv.fresh v dv hv hdv))
  · -- relaxed_old
    intro z hz x2 w2 harc2
    obtain ⟨dz, dx2, hdz, hdx2, hle⟩ := rinv.relaxed_old z hz x2 w2 harc2
    have hzx : z ≠ x := by
      intro h
      exact hxS (h ▸ List.mem_cons_of_mem u hz)
    by_cases hx2x : x2 = x
    · subst hx2x
      refine ⟨dz, du + w, by rw [look_cons_ne _ _ hzx]; exact hdz,
        look_cons_self _ _ _, ?_⟩
      rcases hcase with hnone | ⟨dv, hdv, hlt⟩
      · rw [hdx2] at hnone
        exact Option.noConfusion hnone
      · have := look_unique hdx2 hdv
        subst this
        linarith
    · exact ⟨dz, dx2, by rw [look_cons_ne _ _ hzx]; exact hdz,
        by rw [look_cons_ne _ _ hx2x]; exact hdx2, hle⟩
  · -- prev_arc
    intro v u2 hprev
    by_cases hvx : v = x
    · subst hvx
      rw [look_cons_self] at hprev
      injection hprev with hprev
      injection hprev with hprev
      subst hprev
      exact ⟨w, du, du + w, harc,
        by rw [look_cons_ne _ _ hxu.symm]; exact rinv.dist_u,
        look_cons_self _ _ _, le_refl _⟩
    · rw [look_cons_ne _ _ hvx] at hprev
      obtain ⟨w2, du2, dv2, harc2, hu2, hv2, hle2⟩ := rinv.prev_arc v u2 hprev
      by_cases hu2x : u2 = x
      · subst hu2x
        refine ⟨w2, du + w, dv2, harc2, look_cons_self _ _ _,
          by rw [look_cons_ne _ _ hvx]; exact hv2, ?_⟩
        rcases hcase with hnone | ⟨dv, hdv, hlt⟩
        · rw [hu2] at hnone
          exact Option.noConfusion hnone
        · have := look_unique hu2 hdv
          subst this
          linarith
      · exact ⟨w2, du2, dv2, harc2, by rw [look_cons_ne _ _ hu2x]; exact hu2,
          by rw [look_cons_ne _ _ hvx]; exact hv2, hle2⟩
  · -- prev_none
    intro v hprev
    by_cases hvx : v = x
    · subst hvx
      rw [look_cons_self] at hprev
      injection hprev with hprev
      exact Option.noConfusion hprev
    · rw [look_cons_ne _ _ hvx] at hprev
      exact rinv.prev_none v hprev
  · -- prev_keys
    intro v
    by_cases hvx : v = x
    · subst hvx
      rw [look_cons_self, look_cons_self]
      simp
    · rw [look_cons_ne _ _ hvx, look_cons_ne _ _ hvx]
      exact rinv.prev_keys v
  · -- relaxed_done
    intro x2 w2 hmem
    rcases List.mem_cons.mp hmem with heq | hold
    · injection heq with h1 h2
      subst h1
      subst h2
      exact ⟨_, look_cons_self _ _ _, le_refl _⟩
    · obtain ⟨dx2, hdx2, hle2⟩ := rinv.relaxed_done x2 w2 hold
      by_cases hx2x : x2 = x
      · subst hx2x
        refine ⟨du + w, look_cons_self _ _ _, ?_⟩
        rcases hcase with hnone | ⟨dv, hdv, hlt⟩
        · rw [hdx2] at hnone
          exact Option.noConfusion hnone
        · have := look_unique hdx2 hdv
          subst this
          linarith
      · exact ⟨dx2, by rw [look_cons_ne _ _ hx2x]; exact hdx2, hle2⟩

/-- Each single relaxation step preserves the relaxation invariant. -/
theorem relaxStep_pres {adj : Adj} {origin : String} {S : List String}
    {u : String} {du : ℚ} {done : List (String × ℚ)} {s : St}
    (hw : NonnegArcs adj) {arc : String × ℚ} (harc : arc ∈ arcsOf adj u)
    (rinv : RelaxInv adj origin S u du done s) :
    RelaxInv adj origin S u du (arc :: done) (relaxStep u s arc) := by
  obtain ⟨x, w⟩ := arc
  cases hx : look s.dist x with
  | none =>
    have heq : relaxStep u s (x, w) =
        ⟨(x, du + w) :: s.dist, (x, some u) :: s.prev, pqPush s.pq (du + w, x)⟩ := by
      simp only [relaxStep, rinv.dist_u, hx]
    rw [heq]
    exact relax_update_pres hw harc rinv (Or.inl hx)
  | some dv =>
    by_cases hlt : du + w < dv
    · have heq : relaxStep u s (x, w) =
          ⟨(x, du + w) :: s.dist, (x, some u) :: s.prev, pqPush s.pq (du + w, x)⟩ := by
        simp only [relaxStep, rinv.dist_u, hx, if_pos hlt]
      rw [heq]
      exact relax_update_pres hw harc rinv (Or.inr ⟨dv, hx, hlt⟩)
    · have heq : relaxStep u s (x, w) = s := by
        simp only [relaxStep, rinv.dist_u, hx, if_neg hlt]
      rw [heq]
      refine { rinv with relaxed_done := ?_ }
      intro x2 w2 hmem
      rcases List.mem_cons.mp hmem with heq2 | hold
      · injection heq2 with h1 h2
        subst h1
        subst h2
        exact ⟨dv, hx, le_of_not_lt hlt⟩
      · exact rinv.relaxed_done x2 w2 hold

/-- Folding the relaxation over a list of arcs of `u`. -/
theorem relaxList_pres {adj : Adj} {origin : String} {S : List String}
    {u : String} {du : ℚ} (hw : NonnegArcs adj) :
    ∀ (todo : List (String × ℚ)) (done : List (String × ℚ)) (s : St),
      (∀ a ∈ todo, a ∈ arcsOf adj u) →
      RelaxInv adj origin S u du done s →
      RelaxInv adj origin S u du (todo.reverse ++ done) (todo.foldl (relaxStep u) s) := by
  intro todo
  induction todo with
  | nil => intro done s _ rinv; simpa using rinv
  | cons a todo ih =>
    intro done s hmem rinv
    have h1 := relaxStep_pres hw (hmem a (List.mem_cons_self _ _)) rinv
    have h2 := ih (a :: done) (relaxStep u s a)
      (fun b hb => hmem b (List.mem_cons_of_mem _ hb)) h1
    simpa [List.append_assoc] using h2

/-- Starting the relaxation of a node popped with an up-to-date cost. -/
theorem relaxInv_start {adj : Adj} {origin : String} {S : List String} {s : St}
    {c : ℚ} {u : String} {rest : List (ℚ × String)} {du : ℚ}
    (inv : LoopInv adj origin S s) (hpq : s.pq = (c, u) :: rest)
    (hdu : look s.dist u = some du)
    (hopt : ∀ l cp, Walk adj origin u l cp → du ≤ cp) :
    RelaxInv adj origin S u du [] { s with pq := rest } := by
  have hsorted : List.Pairwise (fun a b : ℚ × String => a.1 ≤ b.1) ((c, u) :: rest) :=
    hpq ▸ inv.sorted
  refine
    { sorted := (List.pairwise_cons.mp hsorted).2
      qdist := fun k v hkv => inv.qdist k v (by rw [hpq]; exact List.mem_cons_of_mem _ hkv)
      settled_opt := ?_
      sound := inv.sound
      fresh := ?_
      origin0 := inv.origin0
      relaxed_old := inv.relaxed
      prev_arc := inv.prev_arc
      prev_none := inv.prev_none
      prev_keys := inv.prev_keys
      dist_u := hdu
      relaxed_done := by intro x w h; exact absurd h (List.not_mem_nil _) }
  · intro v hv
    rcases List.mem_cons.mp hv with rfl | hv
    · exact ⟨du, hdu, hopt⟩
    · exact inv.settled_opt v hv
  · intro v dv hv hdv
    have hvu : v ≠ u := fun h => hv (h ▸ List.mem_cons_self _ _)
    have hmem := inv.fresh v dv (fun h => hv (List.mem_cons_of_mem _ h)) hdv
    rw [hpq] at hmem
    rcases List.mem_cons.mp hmem with heq | hmem
    · injection heq with h1 h2
      exact absurd h2 hvu
    · exact hmem

/-- Finishing the relaxation of all arcs of `u` yields the loop invariant with
`u` settled. -/
theorem relaxInv_finish {adj : Adj} {origin : String} {S : List String}
    {u : String} {du : ℚ} {done : List (String × ℚ)} {s : St}
    (rinv : RelaxInv adj origin S u du done s)
    (hcov : ∀ a ∈ arcsOf adj u, a ∈ done) :
    LoopInv adj origin (u :: S) s := by
  refine
    { sorted := rinv.sorted
      qdist := rinv.qdist
      settled_opt := rinv.settled_opt
      sound := rinv.sound
      fresh := rinv.fresh
      origin0 := rinv.origin0
      relaxed := ?_
      prev_arc := rinv.prev_arc
      prev_none := rinv.prev_none
      prev_keys := rinv.prev_keys }
  intro z hz x w harc
  rcases List.mem_cons.mp hz with rfl | hz
  · obtain ⟨dx, hdx, hle⟩ := rinv.relaxed_done x w (hcov _ harc)
    exact ⟨du, dx, rinv.dist_u, hdx, hle⟩
  · exact rinv.relaxed_old z hz x w harc

/-- Discarding a stale queue entry preserves the loop invariant. -/
theorem stale_pres {adj : Adj} {origin : String} {S : List String} {s : St}
    {c : ℚ} {u : String} {rest : List (ℚ × String)} {du : ℚ}
    (inv : LoopInv adj origin S s) (hpq : s.pq = (c, u) :: rest)
    (hdu : look s.dist u = some du) (hstale : du < c) :
    LoopInv adj origin S { s with pq := rest } := by
  have hsorted : List.Pairwise (fun a b : ℚ × String => a.1 ≤ b.1) ((c, u) :: rest) :=
    hpq ▸ inv.sorted
  refine
    { sorted := (List.pairwise_cons.mp hsorted).2
      qdist := fun k v hkv => inv.qdist k v (by rw [hpq]; exact List.mem_cons_of_mem _ hkv)
      settled_opt := inv.settled_opt
      sound := inv.sound
      fresh := ?_
      origin0 := inv.origin0
      relaxed := inv.relaxed
      prev_arc := inv.prev_arc
      prev_none := inv.prev_none
      prev_keys := inv.prev_keys }
  intro v dv hv hdv
  have hmem := inv.fresh v dv hv hdv
  rw [hpq] at hmem
  rcases List.mem_cons.mp hmem with heq | hmem
  · injection heq with h1 h2
    subst h2
    have := look_unique hdv hdu
    subst this
    subst h1
    exact absurd hstale (lt_irrefl _)
  · exact hmem

/-- What survives of the invariant at loop exit, plus optimality of the
destination's recorded cost. -/
structure PostInv (adj : Adj) (origin dest : String) (s : St) : Prop where
  sound : ∀ v dv, look s.dist v = some dv → ∃ l, Walk adj origin v l dv
  origin0 : look s.dist origin = some 0
  prev_arc : ∀ v u2, look s.prev v = some (some u2) →
      ∃ w du2 dv, (v, w) ∈ arcsOf adj u2 ∧ look s.dist u2 = some du2 ∧
        look s.dist v = some dv ∧ du2 + w ≤ dv
  prev_none : ∀ v, look s.prev v = some none → v = origin
  prev_keys : ∀ v, (look s.prev v).isSome ↔ (look s.dist v).isSome
  dest_opt : ∀ dv, look s.dist dest = some dv → ∀ l c, Walk adj origin dest l c → dv ≤ c

/-- Master lemma: if the main loop finishes, the surviving state is sound and
the destination's recorded cost is minimal over all walks. -/
theorem loop_post {adj : Adj} {origin dest : String} (hw : NonnegArcs adj) :
    ∀ (fuel : ℕ) (S : List String) (s s' : St),
      LoopInv adj origin S s → loop adj dest fuel s = some s' →
      PostInv adj origin dest s' := by
  intro fuel
  induction fuel with
  | zero => intro S s s' _ h; exact absurd h (by simp [loop])
  | succ fuel ih =>
    intro S s s' inv h
    rw [loop] at h
    cases hpq : s.pq with
    | nil =>
      rw [hpq] at h
      injection h with h
      subst h
      refine
        { sound := inv.sound
          origin0 := inv.origin0
          prev_arc := inv.prev_arc
          prev_none := inv.prev_none
          prev_keys := inv.prev_keys
          dest_opt := ?_ }
      intro dv hdv l c hwalk
      by_cases hS : dest ∈ S
      · obtain ⟨dv', hdv', hopt⟩ := inv.settled_opt dest hS
        have := look_unique hdv hdv'
        subst this
        exact hopt l c hwalk
      · have := inv.fresh dest dv hS hdv
        rw [hpq] at this
        exact absurd this (List.not_mem_nil _)
    | cons e rest =>
      obtain ⟨c, u⟩ := e
      rw [hpq] at h
      dsimp only at h
      by_cases hud : u = dest
      · subst hud
        rw [if_pos rfl] at h
        injection h with h
        subst h
        refine
          { sound := inv.sound
            origin0 := inv.origin0
            prev_arc := inv.prev_arc
            prev_none := inv.prev_none
            prev_keys := inv.prev_keys
            dest_opt := ?_ }
        intro dv hdv l cp hwalk
        exact pop_min_opt hw inv hpq hdv l cp hwalk
      · rw [if_neg hud] at h
        cases hdu : look s.dist u with
        | none =>
          rw [hdu] at h
          dsimp only at h
          exact Option.noConfusion h
        | some du =>
          rw [hdu] at h
          dsimp only at h
          by_cases hstale : du < c
          · rw [if_pos hstale] at h
            exact ih S _ s' (stale_pres inv hpq hdu hstale) h
          · rw [if_neg hstale] at h
            have hopt := pop_min_opt hw inv hpq hdu
            have rinv0 := relaxInv_start inv hpq hdu hopt
            have rinv1 := relaxList_pres hw (arcsOf adj u) [] _
              (fun a ha => ha) rinv0
            have inv1 : LoopInv adj origin (u :: S) (relaxAll adj u { s with pq := rest }) := by
              refine relaxInv_finish rinv1 ?_
              intro a ha
              simpa using ha
            exact ih (u :: S) _ s' inv1 h

/-- The invariant holds for the initial solver state. -/
theorem init_inv (adj : Adj) (origin : String) :
    LoopInv adj origin [] ⟨[(origin, 0)], [(origin, none)], [(0, origin)]⟩ := by
  refine
    { sorted := by simp
      qdist := ?_
      settled_opt := by intro v hv; exact absurd hv (List.not_mem_nil _)
      sound := ?_
      fresh := ?_
      origin0 := look_cons_self _ _ _
      relaxed := by intro z hz; exact absurd hz (List.not_mem_nil _)
      prev_arc := ?_
      prev_none := ?_
      prev_keys := ?_ }
  · intro k v hkv
    rcases List.mem_singleton.mp hkv with heq
    injection heq with h1 h2
    subst h1
    subst h2
    exact ⟨0, look_cons_self _ _ _, le_refl _⟩
  · intro v dv hdv
    rw [look_cons] at hdv
    by_cases hv : v = origin
    · subst hv
      rw [if_pos rfl] at hdv
      injection hdv with hdv
      subst hdv
      exact ⟨[v], Walk.single v⟩
    · rw [if_neg hv] at hdv
      exact absurd hdv (by simp [look])
  · intro v dv _ hdv
    rw [look_cons] at hdv
    by_cases hv : v = origin
    · subst hv
      rw [if_pos rfl] at hdv
      injection hdv with hdv
      subst hdv
      simp
    · rw [if_neg hv] at hdv
      exact absurd hdv (by simp [look])
  · intro v u2 hprev
    rw [look_cons] at hprev
    by_cases hv : v = origin
    · subst hv
      rw [if_pos rfl] at hprev
      injection hprev with hprev
      exact Option.noConfusion hprev
    · rw [if_neg hv] at hprev
      exact absurd hprev (by simp [look])
  · intro v hprev
    rw [look_cons] at hprev
    by_cases hv : v = origin
    · exact hv
    · rw [if_neg hv] at hprev
      exact absurd hprev (by simp [look])
  · intro v
    by_cases hv : v = origin
    · subst hv
      rw [look_cons_self, look_cons_self]
      simp
    · rw [look_cons_ne _ _ hv, look_cons_ne _ _ hv]
      simp [look]

theorem walkPrev_none (prev : List (String × Option String)) (fuel : ℕ) :
    walkPrev prev fuel none = some [] := by
  cases fuel <;> rfl

/-- A finished backward walk over `prev` yields a walk of the graph whose cost
is at most the recorded cost of its endpoint. -/
theorem walkPrev_walk {adj : Adj} {origin dest : String} {s : St}
    (pinv : PostInv adj origin dest s) :
    ∀ (fuel : ℕ) (v : String) (l : List String) (dv : ℚ),
      (look s.prev v).isSome → look s.dist v = some dv →
      walkPrev s.prev fuel (some v) = some l →
      ∃ c, Walk adj origin v l.reverse c ∧ c ≤ dv := by
  intro fuel
  induction fuel with
  | zero =>
    intro v l dv _ _ h
    exact absurd h (by simp [walkPrev])
  | succ fuel ih =>
    intro v l dv hsome hdv h
    cases hpv : look s.prev v with
    | none => rw [hpv] at hsome; exact absurd hsome (by simp)
    | some pv =>
      cases pv with
      | none =>
        have hvo : v = origin := pinv.prev_none v hpv
        rw [walkPrev, hpv] at h
        rw [show ((some (none : Option String)).join) = none from rfl, walkPrev_none] at h
        dsimp only at h
        injection h with h
        subst h
        subst hvo
        have hdv0 := look_unique hdv pinv.origin0
        subst hdv0
        exact ⟨0, by simpa using Walk.single v, le_refl 0⟩
      | some u =>
        obtain ⟨w, du, dv', harc, hu, hv', hle⟩ := pinv.prev_arc v u hpv
        have hdveq := look_unique hv' hdv
        subst hdveq
        have husome : (look s.prev u).isSome := (pinv.prev_keys u).mpr (by rw [hu]; rfl)
        rw [walkPrev, hpv] at h
        rw [show ((some (some u)).join) = some u from rfl] at h
        cases hrec : walkPrev s.prev fuel (some u) with
        | none =>
          rw [hrec] at h
          exact Option.noConfusion h
        | some l0 =>
          rw [hrec] at h
          dsimp only at h
          injection h with h
          subst h
          obtain ⟨c0, hwalk, hc0⟩ := ih u l0 du husome hu hrec
          refine ⟨c0 + w, ?_, by linarith⟩
          rw [List.reverse_cons]
          exact Walk.cons hwalk harc

/-! ## Builder characterization -/

/-- The arc an edge contributes in a given direction, with the weight floor
applied. -/
def contributes (mode : Mode) (e : Street) (z x : String) (w : ℚ) : Prop :=
  w = (if (if mode = Mode.safest then e.danger_score else e.distance_m) < 1/100 then 1/100
       else (if mode = Mode.safest then e.danger_score else e.distance_m)) ∧
  ((z = e.start_intersection_id ∧ x = e.end_intersection_id) ∨
   (e.bidirectional = true ∧ z = e.end_intersection_id ∧ x = e.start_intersection_id))

theorem arcsOf_addArc (adj : Adj) (k : String) (arc : String × ℚ) (z : String) :
    arcsOf (addArc adj k arc) z = if z = k then arcsOf adj z ++ [arc] else arcsOf adj z := by
  induction adj with
  | nil =>
    by_cases hz : z = k
    · subst hz
      simp [addArc, arcsOf, look]
    · simp [addArc, arcsOf, look, hz]
  | cons p rest ih =>
    obtain ⟨k', l⟩ := p
    by_cases hk : k = k'
    · subst hk
      by_cases hz : z = k
      · subst hz
        simp [addArc, arcsOf, look]
      · simp [addArc, arcsOf, look_cons_ne _ _ hz, hz]
    · by_cases hz : z = k'
      · subst hz
        simp only [addArc, if_neg hk, arcsOf, look_cons_self]
        rw [if_neg (fun h => hk h.symm)]
      · simp only [addArc, if_neg hk, arcsOf, look_cons_ne _ _ hz] at ih ⊢
        exact ih

theorem mem_arcsOf_edgeStep {mode : Mode} {ada : Bool} {acc : Adj × ℕ} {e : Street}
    {z x : String} {w : ℚ} :
    (x, w) ∈ arcsOf (edgeStep mode ada acc e).1 z ↔
      (x, w) ∈ arcsOf acc.1 z ∨
        ((ada = false ∨ e.is_accessible = true) ∧ contributes mode e z x w) := by
  by_cases hskip : (ada && !e.is_accessible) = true
  · have h1 : edgeStep mode ada acc e = (acc.1, acc.2 + 1) := by
      simp only [edgeStep, if_pos hskip]
    rw [h1]
    simp only [Bool.and_eq_true, Bool.not_eq_true'] at hskip
    constructor
    · exact Or.inl
    · rintro (h | ⟨hc, _⟩)
      · exact h
      · rcases hc with hc | hc
        · rw [hskip.1] at hc
          exact Bool.noConfusion hc
        · rw [hskip.2] at hc
          exact Bool.noConfusion hc
  · have hok : ada = false ∨ e.is_accessible = true := by
      rcases Bool.eq_false_or_eq_true ada with ha | ha
      · right
        rw [ha] at hskip
        simp only [Bool.true_and, Bool.not_eq_true', Bool.not_eq_false] at hskip
        exact hskip
      · exact Or.inl ha
    have h1 : edgeStep mode ada acc e =
        (if e.bidirectional then
            addArc (addArc acc.1 e.start_intersection_id (e.end_intersection_id,
              if (if mode = Mode.safest then e.danger_score else e.distance_m) < 1/100
              then 1/100 else (if mode = Mode.safest then e.danger_score else e.distance_m)))
              e.end_intersection_id (e.start_intersection_id,
              if (if mode = Mode.safest then e.danger_score else e.distance_m) < 1/100
              then 1/100 else (if mode = Mode.safest then e.danger_score else e.distance_m))
          else
            addArc acc.1 e.start_intersection_id (e.end_intersection_id,
              if (if mode = Mode.safest then e.danger_score else e.distance_m) < 1/100
              then 1/100 else (if mode = Mode.safest then e.danger_score else e.distance_m)),
          acc.2) := by
      simp only [edgeStep, if_neg hskip]
    rw [h1]
    set W : ℚ := if (if mode = Mode.safest then e.danger_score else e.distance_m) < 1/100
      then 1/100 else (if mode = Mode.safest then e.danger_score else e.distance_m) with hW
    cases hbi : e.bidirectional
    · rw [if_neg (by simp : ¬(false = true))]
      rw [arcsOf_addArc]
      constructor
      · intro h
        by_cases hz : z = e.start_intersection_id
        · rw [if_pos hz] at h
          rcases List.mem_append.mp h with h | h
          · exact Or.inl h
          · rcases List.mem_singleton.mp h with heq
            injection heq with hx hw2
            exact Or.inr ⟨hok, hw2, Or.inl ⟨hz, hx⟩⟩
        · rw [if_neg hz] at h
          exact Or.inl h
      · rintro (h | ⟨_, hw2, hdir⟩)
        · by_cases hz : z = e.start_intersection_id
          · rw [if_pos hz]
            exact List.mem_append.mpr (Or.inl h)
          · rw [if_neg hz]
            exact h
        · rcases hdir with ⟨hz, hx⟩ | ⟨hb, _⟩
          · rw [if_pos hz]
            refine List.mem_append.mpr (Or.inr ?_)
            rw [hx, hw2]
            exact List.mem_singleton.mpr rfl
          · rw [hbi] at hb
            exact Bool.noConfusion hb
    · rw [if_pos rfl]
      rw [arcsOf_addArc, arcsOf_addArc]
      constructor
      · intro h
        by_cases hz2 : z = e.end_intersection_id
        · rw [if_pos hz2] at h
          rcases List.mem_append.mp h with h | h
          · by_cases hz1 : z = e.start_intersection_id
            · rw [if_pos hz1] at h
              rcases List.mem_append.mp h with h | h
              · exact Or.inl h
              · rcases List.mem_singleton.mp h with heq
                injection heq with hx hw2
                exact Or.inr ⟨hok, hw2, Or.inl ⟨hz1, hx⟩⟩
            · rw [if_neg hz1] at h
              exact Or.inl h
          · rcases List.mem_singleton.mp h with heq
            injection heq with hx hw2
            exact Or.inr ⟨hok, hw2, Or.inr ⟨hbi, hz2, hx⟩⟩
        · rw [if_neg hz2] at h
          by_cases hz1 : z = e.start_intersection_id
          · rw [if_pos hz1] at h
            rcases List.mem_append.mp h with h | h
            · exact Or.inl h
            · rcases List.mem_singleton.mp h with heq
              injection heq with hx hw2
              exact Or.inr ⟨hok, hw2, Or.inl ⟨hz1, hx⟩⟩
          · rw [if_neg hz1] at h
            exact Or.inl h
      · rintro (h | ⟨_, hw2, hdir⟩)
        · by_cases hz2 : z = e.end_intersection_id
          · rw [if_pos hz2]
            refine List.mem_append.mpr (Or.inl ?_)
            by_cases hz1 : z = e.start_intersection_id
            · rw [if_pos hz1]
              exact List.mem_append.mpr (Or.inl h)
            · rw [if_neg hz1]
              exact h
          · rw [if_neg hz2]
            by_cases hz1 : z = e.start_intersection_id
            · rw [if_pos hz1]
              exact List.mem_append.mpr (Or.inl h)
            · rw [if_neg hz1]
              exact h
        · rcases hdir with ⟨hz, hx⟩ | ⟨_, hz, hx⟩
          · by_cases hz2 : z = e.end_intersection_id
            · rw [if_pos hz2]
              refine List.mem_append.mpr (Or.inl ?_)
              rw [if_pos hz]
              refine List.mem_append.mpr (Or.inr ?_)
              rw [hx, hw2]
              exact List.mem_singleton.mpr rfl
            · rw [if_neg hz2, if_pos hz]
              refine List.mem_append.mpr (Or.inr ?_)
              rw [hx, hw2]
              exact List.mem_singleton.mpr rfl
          · rw [if_pos hz]
            refine List.mem_append.mpr (Or.inr ?_)
            rw [hx, hw2]
            exact List.mem_singleton.mpr rfl

theorem mem_arcsOf_edgesFold {mode : Mode} {ada : Bool} :
    ∀ (l : List Street) (acc : Adj × ℕ) (z x : String) (w : ℚ),
      (x, w) ∈ arcsOf (edgesFold mode ada l acc).1 z ↔
        (x, w) ∈ arcsOf acc.1 z ∨
          ∃ e ∈ l, (ada = false ∨ e.is_accessible = true) ∧ contributes mode e z x w := by
  intro l
  induction l with
  | nil => intro acc z x w; simp [edgesFold]
  | cons e l ih =>
    intro acc z x w
    have hstep : edgesFold mode ada (e :: l) acc =
        edgesFold mode ada l (edgeStep mode ada acc e) := rfl
    rw [hstep, ih]
    rw [mem_arcsOf_edgeStep]
    constructor
    · rintro ((h | h) | ⟨e2, he2, h2⟩)
      · exact Or.inl h
      · exact Or.inr ⟨e, List.mem_cons_self _ _, h⟩
      · exact Or.inr ⟨e2, List.mem_cons_of_mem _ he2, h2⟩
    · rintro (h | ⟨e2, he2, h2⟩)
      · exact Or.inl (Or.inl h)
      · rcases List.mem_cons.mp he2 with rfl | he2
        · exact Or.inl (Or.inr h2)
        · exact Or.inr ⟨e2, he2, h2⟩

theorem look_append {α : Type} (l1 l2 : List (String × α)) (a : String) :
    look (l1 ++ l2) a =
      match look l1 a with
      | some v => some v
      | none => look l2 a := by
  induction l1 with
  | nil => simp [look]
  | cons p r ih =>
    obtain ⟨k, v⟩ := p
    by_cases hk : a = k
    · subst hk
      simp [look_cons]
    · simp only [List.cons_append, look_cons_ne _ _ hk, look_cons_ne _ _ hk, ih]

theorem arcsOf_seedNode {adj : Adj} (nid : String)
    (h : ∀ z, arcsOf adj z = []) : ∀ z, arcsOf (seedNode adj nid) z = [] := by
  intro z
  unfold seedNode
  cases hl : look adj nid with
  | some v => exact h z
  | none =>
    unfold arcsOf
    rw [look_append]
    cases hz : look adj z with
    | some v =>
      have := h z
      unfold arcsOf at this
      rw [hz] at this
      simpa using this
    | none =>
      by_cases hzn : z = nid
      · subst hzn
        simp [look]
      · simp [look, hzn]

theorem nodesFold_arcs (inters : List Intersection) :
    ∀ (acc : Adj × Coords), (∀ z, arcsOf acc.1 z = []) →
      ∀ z, arcsOf (inters.foldl
        (fun (p : Adj × Coords) doc =>
          (seedNode p.1 doc.id, setTo p.2 doc.id doc.coordinates)) acc).1 z = [] := by
  induction inters with
  | nil => intro acc h z; exact h z
  | cons i l ih =>
    intro acc h z
    exact ih (seedNode acc.1 i.id, setTo acc.2 i.id i.coordinates)
      (arcsOf_seedNode i.id h) z

/-- Full characterization of the arcs of a built snapshot. -/
theorem build_arcs_mem {inters : List Intersection} {streets : List Street}
    {mode : Mode} {ada : Bool} {z x : String} {w : ℚ} :
    (x, w) ∈ arcsOf (build_adjacency_list inters streets mode ada).1 z ↔
      ∃ e ∈ streets, (ada = false ∨ e.is_accessible = true) ∧ contributes mode e z x w := by
  unfold build_adjacency_list
  dsimp only
  rw [mem_arcsOf_edgesFold]
  have hinit := nodesFold_arcs inters ([], []) (fun z => rfl) z
  constructor
  · rintro (h | h)
    · rw [hinit] at h
      exact absurd h (List.not_mem_nil _)
    · exact h
  · exact Or.inr

/-- Claim C7 backbone: every built arc weight carries the 1/100 floor. -/
theorem build_weights_floor {inters : List Intersection} {streets : List Street}
    {mode : Mode} {ada : Bool} {z x : String} {w : ℚ}
    (h : (x, w) ∈ arcsOf (build_adjacency_list inters streets mode ada).1 z) :
    1/100 ≤ w := by
  obtain ⟨e, _, _, hw2, _⟩ := build_arcs_mem.mp h
  rw [hw2]
  by_cases h2 : (if mode = Mode.safest then e.danger_score else e.distance_m) < 1/100
  · rw [if_pos h2]
  · rw [if_neg h2]
    exact le_of_not_lt h2

theorem build_nonneg (inters : List Intersection) (streets : List Street)
    (mode : Mode) (ada : Bool) :
    NonnegArcs (build_adjacency_list inters streets mode ada).1 :=
  fun _ _ w h => le_trans (by norm_num) (build_weights_floor h)

/-- A successful route computation returns a minimum-cost walk, and reports
its exact cost rounded once at the boundary. -/
theorem compute_ok_minimal {inters : List Intersection} {streets : List Street}
    {origin dest : String} {mode : Mode} {ada : Bool} {fuel : ℕ} {r : RouteResult}
    (h : compute_route inters streets origin dest mode ada fuel =
      some (RouteOutcome.ok r)) :
    ∃ c, Walk (build_adjacency_list inters streets mode ada).1 origin dest r.path c ∧
      (∀ l2 c2,
        Walk (build_adjacency_list inters streets mode ada).1 origin dest l2 c2 → c ≤ c2) ∧
      r.total_cost = round4 c := by
  unfold compute_route at h
  dsimp only at h
  set adj := (build_adjacency_list inters streets mode ada).1 with hadj
  set coords := (build_adjacency_list inters streets mode ada).2.1 with hcoords
  by_cases ho : (look adj origin).isNone
  · rw [if_pos ho] at h
    injection h with h
    exact RouteOutcome.noConfusion h
  · rw [if_neg ho] at h
    by_cases hd : (look adj dest).isNone
    · rw [if_pos hd] at h
      injection h with h
      exact RouteOutcome.noConfusion h
    · rw [if_neg hd] at h
      cases hloop : loop adj dest fuel ⟨[(origin, 0)], [(origin, none)], [(0, origin)]⟩ with
      | none =>
        rw [hloop] at h
        exact Option.noConfusion h
      | some s =>
        rw [hloop] at h
        dsimp only at h
        by_cases hprev : (look s.prev dest).isNone
        · rw [if_pos hprev] at h
          injection h with h
          exact RouteOutcome.noConfusion h
        · rw [if_neg hprev] at h
          have hprevsome : (look s.prev dest).isSome := by
            cases hx : look s.prev dest
            · rw [hx] at hprev
              simp at hprev
            · rfl
          cases hwp : walkPrev s.prev (s.prev.length + 1) (some dest) with
          | none =>
            rw [hwp] at h
            exact Option.noConfusion h
          | some revPath =>
            rw [hwp] at h
            dsimp only at h
            cases hpc : pathCoords coords revPath.reverse with
            | error n =>
              rw [hpc] at h
              injection h with h
              exact RouteOutcome.noConfusion h
            | ok cs =>
              rw [hpc] at h
              dsimp only at h
              injection h with h
              injection h with h
              subst h
              have hw : NonnegArcs adj := build_nonneg inters streets mode ada
              have post := loop_post hw fuel [] _ s (init_inv adj origin) hloop
              have hds : (look s.dist dest).isSome := by
                rw [← post.prev_keys]
                exact hprevsome
              obtain ⟨dd, hdd⟩ := Option.isSome_iff_exists.mp hds
              obtain ⟨c, hwalk, hcle⟩ := walkPrev_walk post _ dest revPath dd
                hprevsome hdd hwp
              have hge := post.dest_opt dd hdd _ _ hwalk
              have hceq : c = dd := le_antisymm hcle hge
              subst hceq
              refine ⟨c, hwalk, fun l2 c2 hwalk2 => post.dest_opt c hdd l2 c2 hwalk2, ?_⟩
              rw [hdd]
              rfl

/-! ## General rounding lemmas -/

theorem rhe_le (x : ℚ) : (rhe x : ℚ) ≤ x + 1/2 := by
  unfold rhe
  have h0 : (0 : ℚ) ≤ x - ⌊x⌋ := by
    have := Int.floor_le x
    linarith
  have h1 : x - ⌊x⌋ < 1 := by
    have := Int.lt_floor_add_one x
    linarith
  by_cases hr : x - ⌊x⌋ < 1/2
  · rw [if_pos hr]
    linarith
  · rw [if_neg hr]
    by_cases hr2 : 1/2 < x - ⌊x⌋
    · rw [if_pos hr2]
      push_cast
      linarith
    · rw [if_neg hr2]
      have : x - ⌊x⌋ = 1/2 := le_antisymm (le_of_not_lt hr2) (le_of_not_lt hr)
      by_cases he : (⌊x⌋ : ℤ) % 2 = 0
      · rw [if_pos he]
        linarith
      · rw [if_neg he]
        push_cast
        linarith

theorem le_rhe (x : ℚ) : x - 1/2 ≤ (rhe x : ℚ) := by
  unfold rhe
  have h0 : (0 : ℚ) ≤ x - ⌊x⌋ := by
    have := Int.floor_le x
    linarith
  have h1 : x - ⌊x⌋ < 1 := by
    have := Int.lt_floor_add_one x
    linarith
  by_cases hr : x - ⌊x⌋ < 1/2
  · rw [if_pos hr]
    linarith
  · rw [if_neg hr]
    by_cases hr2 : 1/2 < x - ⌊x⌋
    · rw [if_pos hr2]
      push_cast
      linarith
    · rw [if_neg hr2]
      have : x - ⌊x⌋ = 1/2 := le_antisymm (le_of_not_lt hr2) (le_of_not_lt hr)
      by_cases he : (⌊x⌋ : ℤ) % 2 = 0
      · rw [if_pos he]
        linarith
      · rw [if_neg he]
        push_cast
        linarith

theorem rhe_mono {x y : ℚ} (h : x ≤ y) : rhe x ≤ rhe y := by
  by_contra hc
  push_neg at hc
  have h1 : rhe y + 1 ≤ rhe x := hc
  have h2 : ((rhe y : ℚ) + 1 : ℚ) ≤ (rhe x : ℚ) := by exact_mod_cast h1
  have h3 := rhe_le x
  have h4 := le_rhe y
  have hxy : y ≤ x := by linarith
  have : x = y := le_antisymm h hxy
  subst this
  exact absurd rfl (ne_of_lt hc)

theorem round4_mono {x y : ℚ} (h : x ≤ y) : round4 x ≤ round4 y := by
  unfold round4
  have := rhe_mono (mul_le_mul_of_nonneg_right h (by norm_num : (0:ℚ) ≤ 10000))
  have hc : ((rhe (x * 10000) : ℚ)) ≤ ((rhe (y * 10000) : ℚ)) := by exact_mod_cast this
  linarith

theorem round2_mono {x y : ℚ} (h : x ≤ y) : round2 x ≤ round2 y := by
  unfold round2
  have := rhe_mono (mul_le_mul_of_nonneg_right h (by norm_num : (0:ℚ) ≤ 100))
  have hc : ((rhe (x * 100) : ℚ)) ≤ ((rhe (y * 100) : ℚ)) := by exact_mod_cast this
  linarith

theorem round2_le (x : ℚ) : round2 x ≤ x + 1/200 := by
  unfold round2
  have := rhe_le (x * 100)
  linarith

theorem le_round2 (x : ℚ) : x - 1/200 ≤ round2 x := by
  unfold round2
  have := le_rhe (x * 100)
  linarith

/-! ## Hazard blend analysis -/

theorem rhe_div5 (N : ℤ) :
    rhe ((N : ℚ) / 5) = if N % 5 ≤ 2 then N / 5 else N / 5 + 1 := by
  have hfloor : ⌊((N : ℚ) / 5)⌋ = N / 5 := by
    have h := Rat.floor_intCast_div_natCast N 5
    norm_num at h
    exact h
  have hmod0 : 0 ≤ N % 5 := Int.emod_nonneg N (by norm_num)
  have hmod5 : N % 5 < 5 := Int.emod_lt_of_pos N (by norm_num)
  have hdm : 5 * (N / 5) + N % 5 = N := Int.ediv_add_emod N 5
  have hr : (N : ℚ) / 5 - ((N / 5 : ℤ) : ℚ) = ((N % 5 : ℤ) : ℚ) / 5 := by
    have hcast : ((5 * (N / 5) + N % 5 : ℤ) : ℚ) = (N : ℚ) := by
      rw [hdm]
    push_cast at hcast
    linarith
  simp only [rhe]
  rw [hfloor, hr]
  by_cases hm : N % 5 ≤ 2
  · have hlt : ((N % 5 : ℤ) : ℚ) / 5 < 1/2 := by
      have : ((N % 5 : ℤ) : ℚ) ≤ 2 := by exact_mod_cast hm
      linarith
    rw [if_pos hlt, if_pos hm]
  · have h3 : 3 ≤ N % 5 := by omega
    have hgt : 1/2 < ((N % 5 : ℤ) : ℚ) / 5 := by
      have : (3 : ℚ) ≤ ((N % 5 : ℤ) : ℚ) := by exact_mod_cast h3
      linarith
    rw [if_neg (not_lt.mpr (le_of_lt hgt)), if_pos hgt, if_neg hm]

/-- The blend at a score with two decimal places, in integer form. -/
theorem blendScore_int (s k : ℤ) :
    blendScore s ((k : ℚ) / 100) =
      ((min (if (3*k + 200*s) % 5 ≤ 2 then (3*k + 200*s) / 5 else (3*k + 200*s) / 5 + 1)
          10000 : ℤ) : ℚ) / 100 := by
  have harg : (6/10 * ((k : ℚ) / 100) + 4/10 * (s : ℚ)) * 100 =
      ((3*k + 200*s : ℤ) : ℚ) / 5 := by
    push_cast
    ring
  unfold blendScore round2
  rw [harg, rhe_div5]
  set M : ℤ := if (3*k + 200*s) % 5 ≤ 2 then (3*k + 200*s) / 5 else (3*k + 200*s) / 5 + 1
    with hM
  by_cases hlt : M < 10000
  · have h1 : ((M : ℤ) : ℚ) / 100 < 100 := by
      have : ((M : ℤ) : ℚ) < 10000 := by exact_mod_cast hlt
      linarith
    rw [if_pos h1, min_eq_left (le_of_lt hlt)]
  · have h1 : ¬ ((M : ℤ) : ℚ) / 100 < 100 := by
      intro hc
      have : ((M : ℤ) : ℚ) < 10000 := by linarith
      exact hlt (by exact_mod_cast this)
    rw [if_neg h1, min_eq_right (le_of_not_lt hlt)]
    norm_num

/-- One blend step on a two-decimal score: stays a two-decimal score in
[0, 100] and moves weakly toward the severity, never past it. -/
theorem blendScore_step (s k : ℤ) (hs1 : 1 ≤ s) (hs2 : s ≤ 100)
    (hk0 : 0 ≤ k) (hk1 : k ≤ 10000) :
    ∃ m : ℤ, blendScore s ((k : ℚ) / 100) = (m : ℚ) / 100 ∧ 0 ≤ m ∧ m ≤ 10000 ∧
      (k < 100*s → k ≤ m ∧ m ≤ 100*s) ∧
      (100*s < k → 100*s ≤ m ∧ m ≤ k) ∧
      (k = 100*s → m = k) := by
  refine ⟨_, blendScore_int s k, ?_, ?_, ?_, ?_, ?_⟩
  · by_cases h5 : (3*k + 200*s) % 5 ≤ 2 <;> simp only [if_pos, if_neg, h5, if_true] <;> omega
  · omega
  · intro hks
    by_cases h5 : (3*k + 200*s) % 5 ≤ 2 <;> omega
  · intro hks
    by_cases h5 : (3*k + 200*s) % 5 ≤ 2 <;> omega
  · intro hks
    subst hks
    omega

theorem div100_lt_iff {a b : ℤ} : (a : ℚ) / 100 < (b : ℚ) ↔ a < 100 * b := by
  rw [div_lt_iff (by norm_num : (0:ℚ) < 100)]
  constructor
  · intro h
    have : (a : ℚ) < ((100 * b : ℤ) : ℚ) := by push_cast; linarith
    exact_mod_cast this
  · intro h
    have : (a : ℚ) < ((100 * b : ℤ) : ℚ) := by exact_mod_cast h
    push_cast at this
    linarith

theorem lt_div100_iff {a b : ℤ} : (b : ℚ) < (a : ℚ) / 100 ↔ 100 * b < a := by
  rw [lt_div_iff (by norm_num : (0:ℚ) < 100)]
  constructor
  · intro h
    have : ((100 * b : ℤ) : ℚ) < (a : ℚ) := by push_cast; linarith
    exact_mod_cast this
  · intro h
    have : ((100 * b : ℤ) : ℚ) < (a : ℚ) := by exact_mod_cast h
    push_cast at this
    linarith

theorem div100_le_div100 {a b : ℤ} (h : a ≤ b) : (a : ℚ) / 100 ≤ (b : ℚ) / 100 := by
  have : (a : ℚ) ≤ (b : ℚ) := by exact_mod_cast h
  linarith

/-- Invariant of the iterated blend on a two-decimal starting score. -/
theorem blend_iter_inv (s k : ℤ) (hs1 : 1 ≤ s) (hs2 : s ≤ 100)
    (hk0 : 0 ≤ k) (hk1 : k ≤ 10000) :
    ∀ n : ℕ, ∃ kn : ℤ, (blendScore s)^[n] ((k : ℚ) / 100) = (kn : ℚ) / 100 ∧
      0 ≤ kn ∧ kn ≤ 10000 ∧
      (k < 100*s → kn ≤ 100*s) ∧ (100*s < k → 100*s ≤ kn) := by
  intro n
  induction n with
  | zero => exact ⟨k, rfl, hk0, hk1, fun h => le_of_lt h, fun h => le_of_lt h⟩
  | succ n ih =>
    obtain ⟨kn, hxn, hkn0, hkn1, hbelow, habove⟩ := ih
    obtain ⟨m, hm, hm0, hm1, hmb, hma, hme⟩ := blendScore_step s kn hs1 hs2 hkn0 hkn1
    refine ⟨m, ?_, hm0, hm1, ?_, ?_⟩
    · rw [Function.iterate_succ_apply', hxn, hm]
    · intro h
      rcases lt_trichotomy kn (100*s) with hlt | heq | hgt
      · exact (hmb hlt).2
      · rw [hme heq, heq]
      · exact absurd hgt (not_lt.mpr (hbelow h))
    · intro h
      rcases lt_trichotomy (100*s) kn with hlt | heq | hgt
      · exact (hma hlt).1
      · rw [hme heq.symm, ← heq]
      · exact absurd hgt (not_lt.mpr (habove h))

/-- The code's blend agrees with the spec's clamp-then-round formula on the
data model's domain. -/
theorem blendScore_spec (sev : ℤ) (old : ℚ) (h1 : 1 ≤ sev) (h2 : sev ≤ 100)
    (h3 : 0 ≤ old) (h4 : old ≤ 100) :
    blendScore sev old = round2 (max 0 (min 100 (6/10 * old + 4/10 * (sev : ℚ)))) := by
  have hsev1 : (1 : ℚ) ≤ (sev : ℚ) := by exact_mod_cast h1
  have hsev2 : (sev : ℚ) ≤ 100 := by exact_mod_cast h2
  have hy1 : (0 : ℚ) ≤ 6/10 * old + 4/10 * (sev : ℚ) := by linarith
  have hy2 : 6/10 * old + 4/10 * (sev : ℚ) ≤ 100 := by linarith
  rw [min_eq_right hy2, max_eq_right hy1]
  unfold blendScore
  have h100 : round2 ((100 : ℤ) : ℚ) = ((100 : ℤ) : ℚ) := round2_intCast 100
  have hb : round2 (6/10 * old + 4/10 * (sev : ℚ)) ≤ 100 := by
    have := round2_mono hy2
    rw [show ((100 : ℚ)) = ((100 : ℤ) : ℚ) by norm_num] at this ⊢
    rw [h100] at this
    exact this
  by_cases hlt : round2 (6/10 * old + 4/10 * (sev : ℚ)) < 100
  · rw [if_pos hlt]
  · rw [if_neg hlt]
    exact (le_antisymm hb (le_of_not_lt hlt)).symm

/-- Structure of the update scan: matched edges get the blended score, others
are untouched, and the count is the number of matches. -/
theorem update_danger_scores_spec (streets : List Street) (pat : String) (sev : ℤ) :
    (update_danger_scores streets pat sev).2 =
      (streets.filter (fun e => nameMatches pat e.name)).length ∧
    (update_danger_scores streets pat sev).1 =
      streets.map (fun e =>
        if nameMatches pat e.name then
          { e with danger_score := blendScore sev e.danger_score }
        else e) := by
  induction streets with
  | nil => exact ⟨rfl, rfl⟩
  | cons e l ih =>
    by_cases hm : nameMatches pat e.name <;>
      simp [update_danger_scores, hm, ih.1, ih.2, List.filter_cons]

/-! ## The store with no intersection records and one X–Y street -/

def adjXY : Adj := [("X", [("Y", 3)]), ("Y", [("X", 3)])]

theorem buildXY_eq :
    build_adjacency_list [] [edgeXY] Mode.safest false = (adjXY, [], 0) := by
  simp only [build_adjacency_list, edgesFold, edgeStep, addArc, seedNode, setTo, look,
    edgeXY, adjXY, List.foldl, String.reduceEq, reduceIte]
  norm_num

theorem relaxXY :
    relaxAll adjXY "X" ⟨[("X", 0)], [("X", none)], []⟩ =
      ⟨[("Y", 3), ("X", 0)], [("Y", some "X"), ("X", none)], [(3, "Y")]⟩ := by
  simp only [relaxAll, relaxStep, arcsOf, look, pqPush, adjXY, List.foldl,
    String.reduceEq, reduceIte, Option.getD]
  try norm_num
  try simp only [look, pqPush, String.reduceEq, reduceIte]
  try norm_num

theorem loopXY :
    loop adjXY "Y" 10 ⟨[("X", 0)], [("X", none)], [(0, "X")]⟩ =
      some ⟨[("Y", 3), ("X", 0)], [("Y", some "X"), ("X", none)], []⟩ := by
  rw [loop]
  simp only [String.reduceEq, reduceIte, look, lt_self_iff_false]
  rw [relaxXY, loop]
  simp only [String.reduceEq, reduceIte]

/-- End-to-end: origin "X" is absent from the node set but present as an edge
endpoint, and the computation ends in an uncaught KeyError, not NodeNotFound. -/
theorem computeXY :
    compute_route [] [edgeXY] "X" "Y" Mode.safest false 10 =
      some (RouteOutcome.keyError "X") := by
  simp only [compute_route, buildXY_eq]
  rw [loopXY]
  simp only [walkPrev, pathCoords, look, adjXY, Option.join, Option.isNone, Option.getD,
    List.reverse, List.reverseAux, String.reduceEq, reduceIte, List.length,
    Bool.false_eq_true]

/-- Routing from "X" to itself on the same store also raises the KeyError. -/
theorem computeXX :
    compute_route [] [edgeXY] "X" "X" Mode.safest false 10 =
      some (RouteOutcome.keyError "X") := by
  simp only [compute_route, buildXY_eq]
  rw [loop]
  simp only [walkPrev, pathCoords, look, adjXY, Option.join, Option.isNone, Option.getD,
    List.reverse, List.reverseAux, String.reduceEq, reduceIte, List.length,
    Bool.false_eq_true]

/-- Requesting an origin absent from the adjacency map fails with the
origin-not-found error, for every store and both filters. -/
theorem compute_origin_not_found {inters : List Intersection} {streets : List Street}
    {origin dest : String} {mode : Mode} {ada : Bool} {fuel : ℕ}
    (h : look (build_adjacency_list inters streets mode ada).1 origin = none) :
    compute_route inters streets origin dest mode ada fuel =
      some (RouteOutcome.nodeNotFound origin) := by
  unfold compute_route
  dsimp only
  rw [h]
  rfl

/-- Solving with destination equal to origin, for an origin with both an
adjacency entry and a coordinate record: a single-node path of cost zero. -/
theorem compute_self_route {inters : List Intersection} {streets : List Street}
    {mode : Mode} {ada : Bool} {origin : String} {fuel : ℕ} {co : List ℚ}
    (hfuel : 1 ≤ fuel)
    (hadj : (look (build_adjacency_list inters streets mode ada).1 origin).isSome)
    (hco : look (build_adjacency_list inters streets mode ada).2.1 origin = some co) :
    compute_route inters streets origin origin mode ada fuel =
      some (RouteOutcome.ok
        { path := [origin], coordinates := [co], total_cost := 0, mode := mode,
          ada_required := ada,
          hazards_bypassed := (build_adjacency_list inters streets mode ada).2.2 }) := by
  obtain ⟨v, hv⟩ := Option.isSome_iff_exists.mp hadj
  obtain ⟨f, rfl⟩ : ∃ f, fuel = f + 1 := ⟨fuel - 1, by omega⟩
  unfold compute_route
  dsimp only
  rw [hv]
  rw [if_neg (by simp)]
  rw [if_neg (by simp)]
  rw [loop]
  dsimp only
  rw [if_pos rfl]
  dsimp only
  rw [if_neg (by rw [look_cons_self]; simp)]
  rw [walkPrev]
  rw [show ((look [(origin, (none : Option String))] origin).join) = none by
    rw [look_cons_self]; rfl]
  rw [walkPrev_none]
  dsimp only
  dsimp only [List.reverse, List.reverseAux]
  rw [pathCoords.eq_def]
  dsimp only
  rw [hco]
  dsimp only
  rw [pathCoords.eq_def]
  dsimp only
  rw [look_cons_self]
  rw [show (some (0 : ℚ)).getD 0 = (0 : ℚ) from rfl]
  rw [show round4 0 = 0 by
    have := round4_intCast 0
    norm_num at this
    exact this]

/-- A reconstructed path containing a node without a coordinate record makes
the coordinate lookup raise (the error carries such a node). -/
theorem pathCoords_error {coords : Coords} :
    ∀ (p : List String), (∃ n ∈ p, look coords n = none) →
      ∃ m, pathCoords coords p = Except.error m ∧ look coords m = none := by
  intro p
  induction p with
  | nil => rintro ⟨n, hn, _⟩; exact absurd hn (List.not_mem_nil _)
  | cons n ns ih =>
    rintro ⟨m0, hm0, hm0c⟩
    cases hn : look coords n with
    | none => exact ⟨n, by rw [pathCoords, hn], hn⟩
    | some c =>
      have hm0ns : m0 ∈ ns := by
        rcases List.mem_cons.mp hm0 with rfl | h
        · rw [hn] at hm0c
          exact Option.noConfusion hm0c
        · exact h
      obtain ⟨m, hm, hmc⟩ := ih ⟨m0, hm0ns, hm0c⟩
      refine ⟨m, ?_, hmc⟩
      rw [pathCoords, hn, hm]

/-- Walks are preserved under arc-wise inclusion of adjacency structures. -/
theorem Walk.mono {adj1 adj2 : Adj}
    (hsub : ∀ z a, a ∈ arcsOf adj1 z → a ∈ arcsOf adj2 z)
    {u v : String} {l : List String} {c : ℚ} (h : Walk adj1 u v l c) :
    Walk adj2 u v l c := by
  induction h with
  | single => exact Walk.single _
  | cons _ harc ih => exact Walk.cons ih (hsub _ _ harc)

/-- Arcs of the ADA-filtered snapshot are arcs of the unfiltered one. -/
theorem build_arcs_ada_subset {inters : List Intersection} {streets : List Street}
    {mode : Mode} {z : String} {a : String × ℚ}
    (h : a ∈ arcsOf (build_adjacency_list inters streets mode true).1 z) :
    a ∈ arcsOf (build_adjacency_list inters streets mode false).1 z := by
  obtain ⟨x, w⟩ := a
  obtain ⟨e, he, _, hc⟩ := build_arcs_mem.mp h
  exact build_arcs_mem.mpr ⟨e, he, Or.inl rfl, hc⟩

/-- With the filter on, the exclusion counter counts exactly the inaccessible
edges seen so far. -/
theorem edgesFold_count (mode : Mode) :
    ∀ (l : List Street) (acc : Adj × ℕ),
      (edgesFold mode true l acc).2 =
        acc.2 + (l.filter (fun e => !e.is_accessible)).length := by
  intro l
  induction l with
  | nil => intro acc; simp [edgesFold]
  | cons e l ih =>
    intro acc
    have hstep : edgesFold mode true (e :: l) acc =
        edgesFold mode true l (edgeStep mode true acc e) := rfl
    rw [hstep, ih]
    cases hacc : e.is_accessible
    · have : edgeStep mode true acc e = (acc.1, acc.2 + 1) := by
        simp [edgeStep, hacc]
      rw [this]
      simp [List.filter_cons, hacc]
      omega
    · have : (edgeStep mode true acc e).2 = acc.2 := by
        simp [edgeStep, hacc]
      rw [this]
      simp [List.filter_cons, hacc]

/-- The reported hazards-bypassed count equals the number of inaccessible
edges in the raw dataset. -/
theorem build_hazards_count (inters : List Intersection) (streets : List Street)
    (mode : Mode) :
    (build_adjacency_list inters streets mode true).2.2 =
      (streets.filter (fun e => !e.is_accessible)).length := by
  unfold build_adjacency_list
  dsimp only
  rw [edgesFold_count]
  simp

theorem rhe_eq_floor {x : ℚ} {f : ℤ} (hf : ⌊x⌋ = f) (hr : x - f < 1/2) : rhe x = f := by
  simp only [rhe]
  rw [hf, if_pos hr]

/-- The blend applied to danger score 0.9901 with severity 1 yields 0.99,
a strict decrease although the score is below the severity. -/
theorem blendScore_9901 : blendScore 1 (9901/10000) = 99/100 := by
  have harg : (6/10 * ((9901 : ℚ)/10000) + 4/10 * ((1 : ℤ) : ℚ)) * 100 = 49703/500 := by
    push_cast
    norm_num
  have hfl : ⌊(49703/500 : ℚ)⌋ = 99 := by
    rw [Int.floor_eq_iff]
    norm_num
  unfold blendScore round2
  rw [harg, rhe_eq_floor hfl (by push_cast; norm_num)]
  norm_num

theorem blendScore_45_90 : blendScore 90 45 = 63 := by
  have harg : (6/10 * (45 : ℚ) + 4/10 * ((90 : ℤ) : ℚ)) = ((63 : ℤ) : ℚ) := by
    push_cast
    norm_num
  unfold blendScore
  rw [harg, round2_intCast]
  norm_num

/-- Concrete hazard observation: one edge named "5th Avenue" at score 45,
pattern "5th Ave", severity 90: score becomes 63, one edge updated. -/
theorem update_5thAvenue :
    update_danger_scores [edge5thAvenue] "5th Ave" 90 =
      ([{ edge5thAvenue with danger_score := 63 }], 1) := by
  unfold update_danger_scores
  rw [if_pos (show nameMatches "5th Ave" edge5thAvenue.name = true from rfl)]
  rw [show edge5thAvenue.danger_score = (45 : ℚ) from rfl, blendScore_45_90]
  rfl

/-- The update condition is strict: an equal-cost relaxation never overwrites
the recorded best path. -/
theorem relaxStep_tie_no_overwrite {u x : String} {s : St} {w du dv : ℚ}
    (hdu : look s.dist u = some du) (hdv : look s.dist x = some dv)
    (heq : du + w = dv) : relaxStep u s (x, w) = s := by
  simp only [relaxStep, hdu, hdv]
  rw [if_neg (by rw [heq]; exact lt_irrefl _)]

theorem buildAdaOff_eq :
    build_adjacency_list scenarioNodes scenarioStreetsAda Mode.safest false =
      (adjSafest, coordsScenario, 0) := by
  simp only [build_adjacency_list, edgesFold, edgeStep, addArc, seedNode, setTo, look,
    scenarioNodes, scenarioStreetsAda, nodeA, nodeB, nodeC, nodeD,
    edgeAB, edgeAC, edgeBD, edgeCD, adjSafest, coordsScenario, List.foldl,
    String.reduceEq, reduceIte]
  norm_num

/-- The ADA-scenario store routed without the filter: same path and cost. -/
theorem computeAdaOff :
    compute_route scenarioNodes scenarioStreetsAda "A" "D" Mode.safest false 10 =
      some (RouteOutcome.ok
        { path := ["A", "C", "D"], coordinates := [[0, 0], [0, 1], [1, 1]],
          total_cost := 18, mode := Mode.safest, ada_required := false,
          hazards_bypassed := 0 }) := by
  simp only [compute_route, buildAdaOff_eq]
  rw [show (⟨[("A", 0)], [("A", none)], [(0, "A")]⟩ : St) = stStart from rfl, loopSafest]
  simp only [walkPrev, pathCoords, look, adjSafest, coordsScenario, Option.join,
    Option.isNone, Option.getD, List.reverse, List.reverseAux,
    String.reduceEq, reduceIte, List.length, round4_eq_18, Bool.false_eq_true]

/-! ## Regex versus substring selection -/

theorem matchHere_eq_isPrefixOf :
    ∀ (p l : List Char), '.' ∉ p →
      matchHere p l = List.isPrefixOf (p.map Char.toLower) (l.map Char.toLower) := by
  intro p
  induction p with
  | nil => intro l _; cases l <;> rfl
  | cons pc ps ih =>
    intro l hdot
    cases l with
    | nil => rfl
    | cons c cs =>
      have hpc : pc ≠ '.' := fun h => hdot (h ▸ List.mem_cons_self _ _)
      have hps : '.' ∉ ps := fun h => hdot (List.mem_cons_of_mem _ h)
      simp only [matchHere, List.map_cons, List.isPrefixOf, regexCharMatch, if_neg hpc]
      rw [ih cs hps]
      by_cases h : pc.toLower = c.toLower <;> simp [h]

/-- On patterns without the `.` wildcard (in particular on metacharacter-free
patterns), the source's regex search coincides with the spec's
case-insensitive substring containment. -/
theorem regexSearch_eq_containsSub :
    ∀ (p l : List Char), '.' ∉ p →
      regexSearch p l = containsSub (p.map Char.toLower) (l.map Char.toLower) := by
  intro p l
  induction l with
  | nil =>
    intro _
    cases p <;> rfl
  | cons c cs ih =>
    intro hdot
    simp only [regexSearch, List.map_cons, containsSub]
    rw [matchHere_eq_isPrefixOf _ _ hdot, ih hdot, List.map_cons]

theorem nameMatches_eq_substr {pat name : String} (h : ('.' : Char) ∉ pat.toList) :
    nameMatches pat name = substrMatches pat name :=
  regexSearch_eq_containsSub pat.toList name.toList h

theorem no_metachar_no_dot {pat : String}
    (h : ∀ c ∈ pat.toList, isMetachar c = false) : ('.' : Char) ∉ pat.toList := by
  intro hmem
  have hfalse := h '.' hmem
  rw [show isMetachar '.' = true from rfl] at hfalse
  exact Bool.noConfusion hfalse

/-- An edge whose name a metacharacter pattern reaches by regex but not by
substring containment. -/
def edgeStoneAve : Street :=
  { name := "Stone Ave", start_intersection_id := "P", end_intersection_id := "Q",
    distance_m := 100, danger_score := 45 }

/-! ## Claim theorems -/

/-- C1: For every store snapshot and every origin and destination, when the
solver succeeds it returns a path from origin to destination whose exact
accumulated cost is the minimum cumulative arc weight over all paths between
them in the snapshot (the early exit on popping the destination included),
and the reported total is that exact minimum rounded to 4 decimal places only
at the result boundary, never during the search. -/
theorem C1_solver_minimal {inters : List Intersection} {streets : List Street}
    {origin dest : String} {mode : Mode} {ada : Bool} {fuel : ℕ} {r : RouteResult}
    (h : compute_route inters streets origin dest mode ada fuel =
      some (RouteOutcome.ok r)) :
    ∃ c, Walk (build_adjacency_list inters streets mode ada).1 origin dest r.path c ∧
      (∀ l2 c2,
        Walk (build_adjacency_list inters streets mode ada).1 origin dest l2 c2 → c ≤ c2) ∧
      r.total_cost = round4 c :=
  compute_ok_minimal h

theorem C1_solver_minimal_witness :
    compute_route scenarioNodes scenarioStreets "A" "D" Mode.safest false 10 =
      some (RouteOutcome.ok
        { path := ["A", "C", "D"], coordinates := [[0, 0], [0, 1], [1, 1]],
          total_cost := 18, mode := Mode.safest, ada_required := false,
          hazards_bypassed := 0 }) ∧
    ∃ c, Walk (build_adjacency_list scenarioNodes scenarioStreets Mode.safest false).1
        "A" "D" ["A", "C", "D"] c ∧
      (∀ l2 c2,
        Walk (build_adjacency_list scenarioNodes scenarioStreets Mode.safest false).1
          "A" "D" l2 c2 → c ≤ c2) ∧
      (18 : ℚ) = round4 c :=
  ⟨computeSafest, C1_solver_minimal computeSafest⟩

/-- C2: On the 4-node scenario graph, the safest route A→D is [A, C, D] at
total cost 18.0, the shortest route A→D has total cost 550.0 via the
first-discovered of the two tied paths, and an equal-cost relaxation never
overwrites the recorded best path (the update condition is strict <). -/
theorem C2_scenario_routes :
    compute_route scenarioNodes scenarioStreets "A" "D" Mode.safest false 10 =
      some (RouteOutcome.ok
        { path := ["A", "C", "D"], coordinates := [[0, 0], [0, 1], [1, 1]],
          total_cost := 18, mode := Mode.safest, ada_required := false,
          hazards_bypassed := 0 }) ∧
    compute_route scenarioNodes scenarioStreets "A" "D" Mode.shortest false 10 =
      some (RouteOutcome.ok
        { path := ["A", "C", "D"], coordinates := [[0, 0], [0, 1], [1, 1]],
          total_cost := 550, mode := Mode.shortest, ada_required := false,
          hazards_bypassed := 0 }) ∧
    (∀ (u x : String) (s : St) (w du dv : ℚ),
      look s.dist u = some du → look s.dist x = some dv → du + w = dv →
        relaxStep u s (x, w) = s) :=
  ⟨computeSafest, computeShortest,
    fun _ _ _ _ _ _ hdu hdv heq => relaxStep_tie_no_overwrite hdu hdv heq⟩

theorem C2_scenario_routes_witness :
    relaxStep "B" ⟨[("D", 20), ("B", 5)], [], []⟩ ("D", 15) =
      ⟨[("D", 20), ("B", 5)], [], []⟩ :=
  C2_scenario_routes.2.2 "B" "D" ⟨[("D", 20), ("B", 5)], [], []⟩ 15 5 20
    (by simp [look]) (by simp [look]) (by norm_num)

/-- C3 counterexample: the source selects edges with a case-insensitive
regex query, not substring containment.  The pattern "St." (a realistic
street abbreviation, whose "." is a regex wildcard) selects the edge named
"Stone Ave" and updates it, although "St." is not a case-insensitive
substring of "Stone Ave" — so the updated set is not exactly the substring
matches and the updated count differs from the substring-match count. -/
theorem C3_regex_counterexample :
    (update_danger_scores [edgeStoneAve] "St." 90).2 = 1 ∧
    substrMatches "St." edgeStoneAve.name = false ∧
    (([edgeStoneAve]).filter (fun e => substrMatches "St." e.name)).length = 0 :=
  ⟨rfl, rfl, rfl⟩

/-- C3 amended: for a namePattern free of regex metacharacters (where the
source's regex query degenerates to substring search) and severity an
integer in [1, 100], the update selects exactly the edges whose name
contains the pattern as a case-insensitive substring, sets each matched
edge's danger score to clamp(0.6 old + 0.4 severity, 0, 100) rounded to 2
decimals, returns the number of edges updated (0 matches is a successful
no-op), and on a single edge "5th Avenue" at 45.0 the observation
("5th Ave", 90) yields 63.0 with one edge updated. -/
theorem C3_hazard_blend (streets : List Street) (pat : String) (sev : ℤ)
    (hmeta : ∀ c ∈ pat.toList, isMetachar c = false)
    (h1 : 1 ≤ sev) (h2 : sev ≤ 100)
    (hD : ∀ e ∈ streets, 0 ≤ e.danger_score ∧ e.danger_score ≤ 100) :
    (update_danger_scores streets pat sev).2 =
      (streets.filter (fun e => substrMatches pat e.name)).length ∧
    (update_danger_scores streets pat sev).1 =
      streets.map (fun e =>
        if substrMatches pat e.name then
          { e with danger_score :=
              round2 (max 0 (min 100 (6/10 * e.danger_score + 4/10 * (sev : ℚ)))) }
        else e) ∧
    update_danger_scores [edge5thAvenue] "5th Ave" 90 =
      ([{ edge5thAvenue with danger_score := 63 }], 1) := by
  have heq : ∀ nm, nameMatches pat nm = substrMatches pat nm :=
    fun nm => nameMatches_eq_substr (no_metachar_no_dot hmeta)
  refine ⟨?_, ?_, update_5thAvenue⟩
  · rw [(update_danger_scores_spec streets pat sev).1]
    exact congrArg List.length (List.filter_congr (fun e _ => heq e.name))
  · rw [(update_danger_scores_spec streets pat sev).2]
    apply List.map_congr_left
    intro e he
    rw [heq e.name]
    by_cases hm : substrMatches pat e.name
    · rw [if_pos hm, if_pos hm,
        blendScore_spec sev e.danger_score h1 h2 (hD e he).1 (hD e he).2]
    · rw [if_neg hm, if_neg hm]

theorem C3_hazard_blend_witness :
    (update_danger_scores [edge5thAvenue] "5th Ave" 90).2 =
      (([edge5thAvenue]).filter (fun e => substrMatches "5th Ave" e.name)).length :=
  (C3_hazard_blend [edge5thAvenue] "5th Ave" 90 (by decide) (by norm_num) (by norm_num)
    (by intro e he; rcases List.mem_singleton.mp he with rfl;
        constructor <;> norm_num [edge5thAvenue])).1

/-- C4 counterexample: with an empty node set and one street between the
otherwise-unknown ids X and Y, requesting a route from X (absent from the
node set but an endpoint of an edge record) does not fail with NodeNotFound:
it ends in an uncaught KeyError. -/
theorem C4_counterexample :
    compute_route [] [edgeXY] "X" "Y" Mode.safest false 10 =
      some (RouteOutcome.keyError "X") ∧
    compute_route [] [edgeXY] "X" "Y" Mode.safest false 10 ≠
      some (RouteOutcome.nodeNotFound "X") := by
  refine ⟨computeXY, ?_⟩
  rw [computeXY]
  intro h
  injection h with h
  exact RouteOutcome.noConfusion h

/-- C4 amended: requesting a route whose origin id is absent from the built
adjacency map — not in the node set and not an endpoint of any edge included
under the current filter — fails with NodeNotFound (not NoPathExists), and an
empty store yields NodeNotFound for any requested origin id. -/
theorem C4_origin_not_found {inters : List Intersection} {streets : List Street}
    {origin dest : String} {mode : Mode} {ada : Bool} {fuel : ℕ}
    (h : look (build_adjacency_list inters streets mode ada).1 origin = none) :
    compute_route inters streets origin dest mode ada fuel =
      some (RouteOutcome.nodeNotFound origin) ∧
    ∀ (o2 d2 : String) (m2 : Mode) (a2 : Bool) (f2 : ℕ),
      compute_route [] [] o2 d2 m2 a2 f2 = some (RouteOutcome.nodeNotFound o2) :=
  ⟨compute_origin_not_found h,
    fun _ _ _ _ _ => compute_origin_not_found rfl⟩

theorem C4_origin_not_found_witness :
    compute_route scenarioNodes scenarioStreets "Z" "D" Mode.safest false 10 =
      some (RouteOutcome.nodeNotFound "Z") :=
  (C4_origin_not_found (by rw [buildSafest_eq]; simp [adjSafest, look])).1

/-- C5: with the accessibility filter on, every inaccessible edge contributes
no arcs (each built arc comes from an accessible edge), the exclusion counter
equals the number of inaccessible edges in the raw dataset (so the reported
hazardsBypassed never exceeds it), and on the scenario graph with B–D
inaccessible the safest accessible route is [A, C, D], cost 18.0, with
hazardsBypassed 1. -/
theorem C5_ada_exclusion :
    (∀ (inters : List Intersection) (streets : List Street) (mode : Mode),
      (build_adjacency_list inters streets mode true).2.2 =
        (streets.filter (fun e => !e.is_accessible)).length) ∧
    (∀ (inters : List Intersection) (streets : List Street) (mode : Mode)
      (z x : String) (w : ℚ),
      (x, w) ∈ arcsOf (build_adjacency_list inters streets mode true).1 z →
        ∃ e ∈ streets, e.is_accessible = true ∧ contributes mode e z x w) ∧
    compute_route scenarioNodes scenarioStreetsAda "A" "D" Mode.safest true 10 =
      some (RouteOutcome.ok
        { path := ["A", "C", "D"], coordinates := [[0, 0], [0, 1], [1, 1]],
          total_cost := 18, mode := Mode.safest, ada_required := true,
          hazards_bypassed := 1 }) := by
  refine ⟨build_hazards_count, ?_, computeAda⟩
  intro inters streets mode z x w h
  obtain ⟨e, he, hcase, hc⟩ := build_arcs_mem.mp h
  rcases hcase with hfalse | hacc
  · exact Bool.noConfusion hfalse
  · exact ⟨e, he, hacc, hc⟩

theorem C5_ada_exclusion_witness :
    ∃ e ∈ scenarioStreetsAda, e.is_accessible = true ∧
      contributes Mode.safest e "C" "D" 8 :=
  C5_ada_exclusion.2.1 scenarioNodes scenarioStreetsAda Mode.safest "C" "D" 8
    (by rw [buildAda_eq]; simp [adjAda, arcsOf, look])

/-- C6: for the same store, mode, origin and destination, if routing succeeds
both with and without the accessibility filter, the filtered total cost is at
least the unfiltered one — enabling the filter never decreases the reachable
cost (when the destination becomes unreachable under the filter there is no
successful filtered result at all). -/
theorem C6_ada_never_cheaper {inters : List Intersection} {streets : List Street}
    {mode : Mode} {origin dest : String} {fuel1 fuel2 : ℕ} {ra r : RouteResult}
    (h1 : compute_route inters streets origin dest mode true fuel1 =
      some (RouteOutcome.ok ra))
    (h2 : compute_route inters streets origin dest mode false fuel2 =
      some (RouteOutcome.ok r)) :
    r.total_cost ≤ ra.total_cost := by
  obtain ⟨ca, hwa, _, hta⟩ := compute_ok_minimal h1
  obtain ⟨c, _, hminc, htc⟩ := compute_ok_minimal h2
  have hwa2 : Walk (build_adjacency_list inters streets mode false).1
      origin dest ra.path ca := hwa.mono (fun _ _ hm => build_arcs_ada_subset hm)
  have hle : c ≤ ca := hminc _ _ hwa2
  rw [hta, htc]
  exact round4_mono hle

theorem C6_ada_never_cheaper_witness :
    (RouteResult.total_cost
      { path := ["A", "C", "D"], coordinates := [[0, 0], [0, 1], [1, 1]],
        total_cost := 18, mode := Mode.safest, ada_required := false,
        hazards_bypassed := 0 }) ≤
    (RouteResult.total_cost
      { path := ["A", "C", "D"], coordinates := [[0, 0], [0, 1], [1, 1]],
        total_cost := 18, mode := Mode.safest, ada_required := true,
        hazards_bypassed := 1 }) :=
  C6_ada_never_cheaper computeAda computeAdaOff

/-- C7: every arc weight in a built snapshot is at least the 0.01 floor, and
in particular strictly positive, whatever the source danger score or
distance was. -/
theorem C7_weight_floor {inters : List Intersection} {streets : List Street}
    {mode : Mode} {ada : Bool} {z x : String} {w : ℚ}
    (h : (x, w) ∈ arcsOf (build_adjacency_list inters streets mode ada).1 z) :
    1/100 ≤ w ∧ 0 < w :=
  ⟨build_weights_floor h, lt_of_lt_of_le (by norm_num) (build_weights_floor h)⟩

theorem C7_weight_floor_witness :
    (1/100 : ℚ) ≤ 5 ∧ (0 : ℚ) < 5 :=
  @C7_weight_floor scenarioNodes scenarioStreets Mode.safest false "A" "B" 5
    (by rw [buildSafest_eq]; simp [adjSafest, arcsOf, look])

/-- C8 counterexample: starting danger score 0.9901 lies in [0, 100] and is
below severity 1, yet a single application of the blend strictly decreases
the score — the sequence is not non-decreasing for every starting score in
[0, 100]. -/
theorem C8_counterexample :
    0 ≤ (9901/10000 : ℚ) ∧ (9901/10000 : ℚ) ≤ 100 ∧
    (9901/10000 : ℚ) < ((1 : ℤ) : ℚ) ∧
    blendScore 1 (9901/10000) < 9901/10000 :=
  ⟨by norm_num, by norm_num, by push_cast; norm_num,
    by rw [blendScore_9901]; norm_num⟩

/-- C8 amended: for every starting danger score with two decimal places in
[0, 100] (the only scores the blend itself produces) and every integer
severity s in [1, 100], the iterated blend is non-decreasing and bounded by
s when the start is below s, non-increasing and bounded below by s when the
start is above s, and always stays within [0, 100]. -/
theorem C8_blend_monotone (s k : ℤ) (hs1 : 1 ≤ s) (hs2 : s ≤ 100)
    (hk0 : 0 ≤ k) (hk1 : k ≤ 10000) (n : ℕ) :
    ((k : ℚ)/100 < (s : ℚ) →
      (blendScore s)^[n] ((k : ℚ)/100) ≤ (blendScore s)^[n+1] ((k : ℚ)/100) ∧
      (blendScore s)^[n] ((k : ℚ)/100) ≤ (s : ℚ)) ∧
    ((s : ℚ) < (k : ℚ)/100 →
      (blendScore s)^[n+1] ((k : ℚ)/100) ≤ (blendScore s)^[n] ((k : ℚ)/100) ∧
      (s : ℚ) ≤ (blendScore s)^[n] ((k : ℚ)/100)) ∧
    0 ≤ (blendScore s)^[n] ((k : ℚ)/100) ∧
    (blendScore s)^[n] ((k : ℚ)/100) ≤ 100 := by
  obtain ⟨kn, hxn, hkn0, hkn1, hbelow, habove⟩ := blend_iter_inv s k hs1 hs2 hk0 hk1 n
  obtain ⟨m, hm, hm0, hm1, hmb, hma, hme⟩ := blendScore_step s kn hs1 hs2 hkn0 hkn1
  have hxn1 : (blendScore s)^[n+1] ((k : ℚ)/100) = (m : ℚ)/100 := by
    rw [Function.iterate_succ_apply', hxn, hm]
  have hs100 : ((100 * s : ℤ) : ℚ)/100 = (s : ℚ) := by
    push_cast
    ring
  refine ⟨?_, ?_, ?_, ?_⟩
  · intro h
    have hks : k < 100 * s := div100_lt_iff.mp h
    have hknb := hbelow hks
    have hknm : kn ≤ m := by
      rcases lt_or_eq_of_le hknb with hlt | heq
      · exact (hmb hlt).1
      · rw [hme heq]
    constructor
    · rw [hxn, hxn1]
      exact div100_le_div100 hknm
    · rw [hxn, ← hs100]
      exact div100_le_div100 hknb
  · intro h
    have hks : 100 * s < k := lt_div100_iff.mp h
    have hkna := habove hks
    have hmn : m ≤ kn := by
      rcases lt_or_eq_of_le hkna with hlt | heq
      · exact (hma hlt).2
      · rw [hme heq.symm]
    constructor
    · rw [hxn, hxn1]
      exact div100_le_div100 hmn
    · rw [hxn, ← hs100]
      exact div100_le_div100 hkna
  · rw [hxn]
    positivity
  · rw [hxn]
    have : ((kn : ℤ) : ℚ) ≤ 10000 := by exact_mod_cast hkn1
    linarith

theorem C8_blend_monotone_witness :
    (((4500 : ℤ) : ℚ)/100 < ((90 : ℤ) : ℚ) →
      (blendScore 90)^[1] (((4500 : ℤ) : ℚ)/100) ≤
        (blendScore 90)^[2] (((4500 : ℤ) : ℚ)/100) ∧
      (blendScore 90)^[1] (((4500 : ℤ) : ℚ)/100) ≤ ((90 : ℤ) : ℚ)) ∧
    (((90 : ℤ) : ℚ) < ((4500 : ℤ) : ℚ)/100 →
      (blendScore 90)^[2] (((4500 : ℤ) : ℚ)/100) ≤
        (blendScore 90)^[1] (((4500 : ℤ) : ℚ)/100) ∧
      ((90 : ℤ) : ℚ) ≤ (blendScore 90)^[1] (((4500 : ℤ) : ℚ)/100)) ∧
    0 ≤ (blendScore 90)^[1] (((4500 : ℤ) : ℚ)/100) ∧
    (blendScore 90)^[1] (((4500 : ℤ) : ℚ)/100) ≤ 100 :=
  C8_blend_monotone 90 4500 (by norm_num) (by norm_num) (by norm_num) (by norm_num) 1

/-- C9 counterexample: on the store with no intersection records and one
X–Y street, the id X is present in the adjacency snapshot, yet solving with
destination equal to origin X does not succeed with path [X] and cost 0 — it
ends in an uncaught KeyError. -/
theorem C9_counterexample :
    (look (build_adjacency_list [] [edgeXY] Mode.safest false).1 "X").isSome ∧
    compute_route [] [edgeXY] "X" "X" Mode.safest false 10 =
      some (RouteOutcome.keyError "X") := by
  refine ⟨?_, computeXX⟩
  rw [buildXY_eq]
  simp [adjXY, look]

/-- C9 amended: for every store, origin present in the adjacency snapshot
and holding a coordinate record, solving with destination equal to origin
succeeds and returns the single-element path [origin] with total cost 0. -/
theorem C9_self_route {inters : List Intersection} {streets : List Street}
    {mode : Mode} {ada : Bool} {origin : String} {fuel : ℕ} {co : List ℚ}
    (hfuel : 1 ≤ fuel)
    (hadj : (look (build_adjacency_list inters streets mode ada).1 origin).isSome)
    (hco : look (build_adjacency_list inters streets mode ada).2.1 origin = some co) :
    compute_route inters streets origin origin mode ada fuel =
      some (RouteOutcome.ok
        { path := [origin], coordinates := [co], total_cost := 0, mode := mode,
          ada_required := ada,
          hazards_bypassed := (build_adjacency_list inters streets mode ada).2.2 }) :=
  compute_self_route hfuel hadj hco

theorem C9_self_route_witness :
    compute_route scenarioNodes scenarioStreets "A" "A" Mode.safest false 10 =
      some (RouteOutcome.ok
        { path := ["A"], coordinates := [[0, 0]], total_cost := 0,
          mode := Mode.safest, ada_required := false,
          hazards_bypassed :=
            (build_adjacency_list scenarioNodes scenarioStreets Mode.safest false).2.2 }) :=
  C9_self_route (by norm_num)
    (by rw [buildSafest_eq]; simp [adjSafest, look])
    (by rw [buildSafest_eq]; simp [coordsScenario, look])

/-- C10: if any node of the reconstructed path has no coordinate record, the
coordinate lookup raises an uncaught key error (it reports such a node)
instead of producing a result; this happens end to end, because an edge
referencing an unknown node id still creates an adjacency entry for it:
the X–Y store yields KeyError "X", not a PathResult, NodeNotFound or
NoPathExists. -/
theorem C10_coords_key_error :
    (∀ (coords : Coords) (p : List String) (n : String),
      n ∈ p → look coords n = none →
      ∃ m, pathCoords coords p = Except.error m ∧ look coords m = none) ∧
    (look (build_adjacency_list [] [edgeXY] Mode.safest false).1 "X").isSome ∧
    compute_route [] [edgeXY] "X" "Y" Mode.safest false 10 =
      some (RouteOutcome.keyError "X") := by
  refine ⟨?_, ?_, computeXY⟩
  · intro coords p n hn hnone
    exact pathCoords_error p ⟨n, hn, hnone⟩
  · rw [buildXY_eq]
    simp [adjXY, look]

theorem C10_coords_key_error_witness :
    ∃ m, pathCoords ([] : Coords) ["X"] = Except.error m ∧
      look ([] : Coords) m = none :=
  C10_coords_key_error.1 [] ["X"] "X" (List.mem_singleton.mpr rfl) rfl
